import Mathlib

/-!
Verification of the meeting-cache layer of the raycast-fathom extension.

The development shallowly embeds the cache layer (`src/utils/cache.ts`), the
coordinating singleton (`src/utils/cacheManager.ts`) and the request
deduplication queue into Lean:

* JS strings are `List Char`; JS numbers used as timestamps are `Int`.
* `LocalStorage` is an association list from keys to structured values; the
  JSON round-trip `setItem (JSON.stringify v)` / `JSON.parse` is modelled by
  storing the structured value directly, with a `malformed` constructor for
  entries that `JSON.parse` (or the unchecked cast that follows it) rejects.
* Async functions are state transformers; `await` interleavings that matter
  (cancellation via `stopBackgroundFetch`) are passed in explicitly as a
  schedule of stop events, one slot per awaited page fetch.
* Storage fallibility, where a claim depends on it, is made explicit through
  a behaviour record saying which storage primitives reject.
-/

namespace Fathom

/-- JS strings, modelled as lists of characters. -/
abbrev Str := List Char

/-- Characters matched by the regex class `\s` (the ASCII part, which is what
the cached text contains). -/
def isWsChar (c : Char) : Bool :=
  c = ' ' || c = '\t' || c = '\n' || c = '\r' || c = '\x0b' || c = '\x0c'

/-- JS `String.prototype.trim`. -/
def jsTrim (s : Str) : Str :=
  ((s.dropWhile isWsChar).reverse.dropWhile isWsChar).reverse

/-- JS `String.prototype.toLowerCase`. -/
def toLowerStr (s : Str) : Str := s.map Char.toLower

/-- JS `String.prototype.split(/\s+/)`: every maximal whitespace run is one
separator, so a leading (resp. trailing) run contributes a leading (resp.
trailing) empty token, exactly as in JS. -/
def jsSplitWs : Str → List Str
  | [] => [[]]
  | c :: cs =>
    if isWsChar c then
      match cs with
      | [] => [] :: jsSplitWs cs
      | c' :: _ => if isWsChar c' then jsSplitWs cs else [] :: jsSplitWs cs
    else
      match jsSplitWs cs with
      | [] => [[c]]
      | t :: ts => (c :: t) :: ts

/-- JS `String.prototype.includes`. -/
def strIncludes (hay needle : Str) : Bool :=
  if needle.isPrefixOf hay then true
  else
    match hay with
    | [] => false
    | _ :: t => strIncludes t needle

/-- Lexicographic string comparison, as used by the default JS `Array.sort`
comparator on strings. -/
def strLe : Str → Str → Bool
  | [], _ => true
  | _ :: _, [] => false
  | a :: as, b :: bs => if a = b then strLe as bs else decide (a < b)

/-- Stable insertion step: `a` goes before the first element it compares
`le` to, and after every earlier (original-order) element it ties with. -/
def insertBy {α : Type} (le : α → α → Bool) (a : α) : List α → List α
  | [] => [a]
  | b :: bs => if le a b then a :: b :: bs else b :: insertBy le a bs

/-- Stable sort by a boolean comparator, modelling JS `Array.prototype.sort`
(stable per the ECMAScript spec). -/
def sortBy {α : Type} (le : α → α → Bool) : List α → List α
  | [] => []
  | a :: as => insertBy le a (sortBy le as)

/-! ## Data model (`cache.ts`) -/

/-- An action item; its internal structure is irrelevant to the cache layer. -/
structure ActionItem where
  text : Str
deriving DecidableEq, Repr

/-- The meeting payload, with the fields the cache layer actually reads:
`recordingId` (batch keys, content hashing, prune), `id` (prune fallback),
`title`/`meetingTitle` (search), and the attached summary / transcript /
action items that `cacheApiResults` copies into the cache record. -/
structure Meeting where
  recordingId : Str
  id : Option Str
  title : Option Str
  meetingTitle : Option Str
  summaryText : Option Str
  transcriptText : Option Str
  actionItems : Option (List ActionItem)
deriving DecidableEq, Repr

/-- `CachedMeetingData` from `cache.ts`. -/
structure CachedMeetingData where
  meeting : Meeting
  summary : Option Str
  transcript : Option Str
  actionItems : Option (List ActionItem)
  cachedAt : Int
  hash : Str
deriving DecidableEq, Repr

/-- `CachedMeetingIndex` from `cache.ts`. -/
structure CachedMeetingIndex where
  meetingIds : List Str
  lastUpdated : Int
deriving DecidableEq, Repr

/-- `CacheMetadata` from `cache.ts`. -/
structure CacheMetadata where
  totalMeetings : Nat
  oldestCachedAt : Int
  newestCachedAt : Int
  lastUpdated : Int
deriving DecidableEq, Repr

/-- A value held in `LocalStorage`. `JSON.parse` plus the unchecked cast is
modelled as a pattern match: a value stored under a meeting key that is not a
serialized `CachedMeetingData` behaves like a parse failure (`malformed`). -/
inductive StorageValue where
  | recordVal (d : CachedMeetingData)
  | idxVal (i : CachedMeetingIndex)
  | metaVal (m : CacheMetadata)
  | malformed
deriving DecidableEq, Repr, Inhabited

/-- `LocalStorage`: an association list of key / value pairs.  `setItem` on an
existing key replaces in place; on a fresh key it appends. -/
abbrev Store := List (Str × StorageValue)

def setItem (store : Store) (key : Str) (v : StorageValue) : Store :=
  if store.any (fun kv => kv.1 = key) then
    store.map (fun kv => if kv.1 = key then (key, v) else kv)
  else
    store ++ [(key, v)]

def removeItem (store : Store) (key : Str) : Store :=
  store.filter (fun kv => kv.1 ≠ key)

def getItem (store : Store) (key : Str) : Option StorageValue :=
  (store.find? (fun kv => kv.1 = key)).map (fun kv => kv.2)

/-! ## Cache configuration (`CACHE_CONFIG`) -/

/-- 30 days, in ms (`CACHE_CONFIG.MEETINGS.TTL`). -/
def MEETINGS_TTL : Int := 30 * 24 * 60 * 60 * 1000

/-- 6 hours, in ms (`CACHE_CONFIG.ACTION_ITEMS.TTL`). -/
def ACTION_ITEMS_TTL : Int := 6 * 60 * 60 * 1000

/-- `CACHE_CONFIG.MEETINGS.KEY_PREFIX`. -/
def MEETING_KEY_NS : Str := "cache:meeting:".data

/-- `CACHE_CONFIG.MEETINGS.INDEX_KEY`. -/
def MEETING_INDEX_KEY : Str := "cache:meeting:index".data

/-- `CACHE_CONFIG.METADATA.KEY`. -/
def METADATA_KEY : Str := "cache:metadata".data

/-- `isCacheValid` from `cache.ts`: `Date.now() - cachedAt < ttl`. -/
def isCacheValid (now cachedAt ttl : Int) : Bool := now - cachedAt < ttl

/-- In the source `generateHash` is the first 16 hex digits of the SHA-256
digest of the meeting id.  The digest is only ever stored in the `hash` field
and never read back or compared anywhere in the code under verification, so
the model uses the id itself as the digest. -/
def generateHash (meetingId : Str) : Str := meetingId

/-! ## `cache.ts` operations -/

/-- One element of the argument of `cacheMeetingsBatch`. -/
structure BatchEntry where
  meetingId : Str
  meeting : Meeting
  summary : Option Str
  transcript : Option Str
  actionItems : Option (List ActionItem)
deriving DecidableEq, Repr

/-- The `CachedMeetingData` value that `cacheMeetingsBatch` serializes for one
batch entry. -/
def entryRecord (now : Int) (e : BatchEntry) : CachedMeetingData :=
  { meeting := e.meeting
    summary := e.summary
    transcript := e.transcript
    actionItems := e.actionItems
    cachedAt := now
    hash := generateHash e.meetingId }

/-- The storage key for a meeting id. -/
def meetingKey (meetingId : Str) : Str := MEETING_KEY_NS ++ meetingId

/-- The `Promise.all` of `setItem` calls in `cacheMeetingsBatch` (all writes
succeed here; fallibility is modelled separately below). -/
def writeMeetingEntries (now : Int) (meetings : List BatchEntry) (store : Store) : Store :=
  meetings.foldl (fun st e => setItem st (meetingKey e.meetingId) (.recordVal (entryRecord now e))) store

/-- One step of the index merge loop in `updateMeetingIndexBatch`: an id
already present is skipped, a missing id is pushed and the changed flag
raised. -/
def indexStep (p : CachedMeetingIndex × Bool) (mid : Str) : CachedMeetingIndex × Bool :=
  if mid ∈ p.1.meetingIds then p
  else ({ p.1 with meetingIds := p.1.meetingIds ++ [mid] }, true)

/-- `updateMeetingIndexBatch`: single index read, merge of missing ids,
single index write if anything changed.  A stored index value that fails to
parse (or on which the duck-typed field access throws) is caught and logged,
leaving the store untouched. -/
def updateMeetingIndexBatch (now : Int) (meetingIds : List Str) (store : Store) : Store :=
  let parsed : Option CachedMeetingIndex :=
    match getItem store MEETING_INDEX_KEY with
    | none => some { meetingIds := [], lastUpdated := now }
    | some (.idxVal i) => some i
    | some _ => none
  match parsed with
  | none => store
  | some index =>
    let merged := meetingIds.foldl indexStep (index, false)
    if merged.2 then
      setItem store MEETING_INDEX_KEY (.idxVal { merged.1 with lastUpdated := now })
    else store

/-- `cacheMeetingsBatch`: write every record, then update the index once. -/
def cacheMeetingsBatch (now : Int) (meetings : List BatchEntry) (store : Store) : Store :=
  updateMeetingIndexBatch now (meetings.map (fun e => e.meetingId))
    (writeMeetingEntries now meetings store)

/-- The per-entry step of `getAllCachedMeetings`: keys outside the meeting
namespace and the index key are skipped, a malformed value is skipped, a
record past the 30-day TTL is dropped (its id is collected for the deferred
index cleanup, which does not affect the returned data), and a surviving
record past the 6-hour action-items TTL is returned with `actionItems`
stripped and everything else intact. -/
def processEntry (now : Int) (kv : Str × StorageValue) : Option CachedMeetingData :=
  if ¬ (MEETING_KEY_NS.isPrefixOf kv.1) then none
  else if kv.1 = MEETING_INDEX_KEY then none
  else
    match kv.2 with
    | .recordVal d =>
      if ¬ isCacheValid now d.cachedAt MEETINGS_TTL then none
      else if d.actionItems.isSome ∧ ¬ isCacheValid now d.cachedAt ACTION_ITEMS_TTL then
        some { d with actionItems := none }
      else some d
    | _ => none

/-- `getAllCachedMeetings`: one bulk `allItems()` read, then the per-entry
filter above.  The scheduled background removal of expired ids is
fire-and-forget and does not affect the returned list; the pure model leaves
the store untouched. -/
def getAllCachedMeetings (now : Int) (store : Store) : List CachedMeetingData :=
  store.filterMap (processEntry now)

/-- `getMeetingId` from `pruneCache`: `meeting.recordingId || meeting.id || ""`
(JS `||` falls through on the empty string). -/
def getMeetingId (m : CachedMeetingData) : Str :=
  if m.meeting.recordingId ≠ [] then m.meeting.recordingId
  else (m.meeting.id.getD [])

/-- The comparator `(a, b) => b.cachedAt - a.cachedAt` (descending). -/
def cachedAtDesc (a b : CachedMeetingData) : Bool := b.cachedAt ≤ a.cachedAt

/-- `pruneCache keepCount`: if more live records than `keepCount`, sort by
`cachedAt` descending (JS `Array.sort` is stable, hence `sortBy`), delete
the excess records (skipping a record whose id is empty), and rewrite the
index to exactly the kept nonempty ids. -/
def pruneCache (now : Int) (keepCount : Nat) (store : Store) : Store :=
  let meetings := getAllCachedMeetings now store
  if meetings.length ≤ keepCount then store
  else
    let sorted := sortBy cachedAtDesc meetings
    let toRemove := sorted.drop keepCount
    let toKeep := sorted.take keepCount
    let store' := toRemove.foldl
      (fun st m =>
        let i := getMeetingId m
        if i = [] then st else removeItem st (meetingKey i))
      store
    let keptIds := (toKeep.map getMeetingId).filter (fun i => i ≠ [])
    setItem store' MEETING_INDEX_KEY (.idxVal { meetingIds := keptIds, lastUpdated := now })

/-- `updateCacheMetadataFromMeetings`. -/
def updateCacheMetadataFromMeetings (now : Int) (meetings : List CachedMeetingData)
    (store : Store) : Store :=
  match meetings with
  | [] => removeItem store METADATA_KEY
  | m :: ms =>
    let times := (m :: ms).map (fun x => x.cachedAt)
    setItem store METADATA_KEY (.metaVal
      { totalMeetings := (m :: ms).length
        oldestCachedAt := times.foldl min m.cachedAt
        newestCachedAt := times.foldl max m.cachedAt
        lastUpdated := now })

/-- The searchable text of one cached meeting:
`[title, meetingTitle, summary, transcript].join(" ").toLowerCase()`. -/
def searchableText (cached : CachedMeetingData) : Str :=
  toLowerStr (List.intercalate [' ']
    [cached.meeting.title.getD [], cached.meeting.meetingTitle.getD [],
     cached.summary.getD [], cached.transcript.getD []])

/-- `searchCachedMeetings`: empty/whitespace-only query returns the input;
otherwise AND over the whitespace-split lowercased terms, substring match. -/
def searchCachedMeetings (cachedMeetings : List CachedMeetingData) (query : Str) :
    List CachedMeetingData :=
  if jsTrim query = [] then cachedMeetings
  else
    let searchTerms := jsSplitWs (toLowerStr query)
    cachedMeetings.filter (fun cached =>
      searchTerms.all (fun term => strIncludes (searchableText cached) term))

/-! ## Fallible storage (`cache.ts`, error paths)

For the error-handling claims the storage primitives' fallibility is made
explicit: a behaviour record says which primitive calls reject.  A raised JS
exception is an `Option Str` error component (`none` = returned normally). -/

/-- Which storage primitives reject. -/
structure StoreBeh where
  setItemFails : Str → Bool
  indexReadFails : Bool
  indexWriteFails : Bool
  allItemsFails : Bool

/-- A behaviour on which every storage call succeeds. -/
def behOk : StoreBeh :=
  { setItemFails := fun _ => false
    indexReadFails := false
    indexWriteFails := false
    allItemsFails := false }

/-- The `Promise.all` of record writes with fallible `setItem`: every write is
started, failures do not stop the others, and the whole `Promise.all` rejects
if any one rejected. -/
def writeMeetingEntriesE (beh : StoreBeh) (now : Int) (meetings : List BatchEntry)
    (store : Store) : Store × Bool :=
  meetings.foldl
    (fun (p : Store × Bool) e =>
      let key := meetingKey e.meetingId
      if beh.setItemFails key then (p.1, true)
      else (setItem p.1 key (.recordVal (entryRecord now e)), p.2))
    (store, false)

/-- `updateMeetingIndexBatch` with fallible storage: its whole body sits in a
try/catch, so a failing index read or write is logged and swallowed. -/
def updateMeetingIndexBatchE (beh : StoreBeh) (now : Int) (meetingIds : List Str)
    (store : Store) : Store :=
  if beh.indexReadFails then store
  else
    let parsed : Option CachedMeetingIndex :=
      match getItem store MEETING_INDEX_KEY with
      | none => some { meetingIds := [], lastUpdated := now }
      | some (.idxVal i) => some i
      | some _ => none
    match parsed with
    | none => store
    | some index =>
      let merged := meetingIds.foldl indexStep (index, false)
      if merged.2 then
        if beh.indexWriteFails then store
        else setItem store MEETING_INDEX_KEY (.idxVal { merged.1 with lastUpdated := now })
      else store

/-- `cacheMeetingsBatch` with fallible storage.  The `await Promise.all`
around the record writes is NOT inside any try/catch, so if any record write
rejected the exception propagates to the caller (and the index update is
never reached).  Only the index step swallows its own errors. -/
def cacheMeetingsBatchE (beh : StoreBeh) (now : Int) (meetings : List BatchEntry)
    (store : Store) : Store × Option Str :=
  let written := writeMeetingEntriesE beh now meetings store
  if written.2 then (written.1, some "storage write failed".data)
  else (updateMeetingIndexBatchE beh now (meetings.map (fun e => e.meetingId)) written.1, none)

/-- The body of `getAllCachedMeetings` before its try/catch: the bulk
`allItems()` read can reject. -/
def getAllCachedMeetingsECore (beh : StoreBeh) (now : Int) (store : Store) :
    Except Str (List CachedMeetingData) :=
  match (if beh.allItemsFails then Except.error "storage read failed".data
         else Except.ok store : Except Str Store) with
  | .error e => .error e
  | .ok all => .ok (all.filterMap (processEntry now))

/-- `getAllCachedMeetings` with fallible storage: the whole body is wrapped
in a try/catch that logs and degrades to the empty list. -/
def getAllCachedMeetingsE (beh : StoreBeh) (now : Int) (store : Store) :
    List CachedMeetingData :=
  match getAllCachedMeetingsECore beh now store with
  | .ok ms => ms
  | .error _ => []

/-! ## The cache coordinator (`cacheManager.ts`)

The singleton's mutable fields become a state record.  Listener fan-out is
modelled as a boolean output (`notified`); the subscriber sets themselves,
and fields only used by `loadCache` (`isLoaded`, `isLoading`) and the fetch
cooldown (`lastFetchTime`), are not needed by any claim and are omitted. -/

/-- `CACHE_SIZE` from `cacheManager.ts`. -/
def CACHE_SIZE : Nat := 500

/-- `MAX_BACKGROUND_PAGES` from `fetchRemainingPages`. -/
def MAX_BACKGROUND_PAGES : Nat := 4

/-- `MAX_PAGES` from `loadMoreMeetings`. -/
def MAX_PAGES : Nat := 5

/-- The coordinator's mutable state. -/
structure MgrState where
  store : Store
  cachedMeetings : List CachedMeetingData
  isCaching : Bool
  lastApiDataHash : Option Str
  lastCacheUpdateTime : Int
  nextCursor : Option Str
  hasMoreMeetings : Bool
  isLoadingMore : Bool
  remainingPagesToken : Nat
  loadMoreToken : Nat
  isFetchingBackground : Bool
deriving DecidableEq, Repr

/-- `setFetchingBackground` (the fetching-listener fan-out carries no state
beyond the flag). -/
def setFetchingBackground (value : Bool) (s : MgrState) : MgrState :=
  if s.isFetchingBackground = value then s
  else { s with isFetchingBackground := value }

/-- `stopBackgroundFetch`: no-op when no background fetch is in flight;
otherwise increments BOTH path tokens and clears the fetching flag. -/
def stopBackgroundFetch (s : MgrState) : MgrState :=
  if ¬ s.isFetchingBackground then s
  else
    setFetchingBackground false
      { s with remainingPagesToken := s.remainingPagesToken + 1
               loadMoreToken := s.loadMoreToken + 1 }

/-- The content hash of `cacheApiResults`:
`meetings.map(m => m.recordingId).sort().join(",")`. -/
def dataHash (meetings : List Meeting) : Str :=
  List.intercalate [','] (sortBy strLe (meetings.map (fun m => m.recordingId)))

/-- The batch entry `cacheApiResults` builds for one fetched meeting. -/
def toBatchEntry (m : Meeting) : BatchEntry :=
  { meetingId := m.recordingId
    meeting := m
    summary := m.summaryText
    transcript := m.transcriptText
    actionItems := m.actionItems }

/-- `cacheApiResults` (storage always succeeding): skip when the id hash
equals the last processed hash or a merge is already running; otherwise
batch-write, prune, re-read the authoritative set and notify.  The boolean
output reports whether the listeners were notified. -/
def cacheApiResults (now : Int) (meetings : List Meeting) (s : MgrState) :
    MgrState × Bool :=
  let h := dataHash meetings
  if s.lastApiDataHash = some h then (s, false)
  else if s.isCaching then (s, false)
  else
    let s1 := { s with isCaching := true, lastApiDataHash := some h }
    let st1 := cacheMeetingsBatch now (meetings.map toBatchEntry) s1.store
    let st2 := pruneCache now CACHE_SIZE st1
    let cached := getAllCachedMeetings now st2
    ({ s1 with store := st2, cachedMeetings := cached, isCaching := false }, true)

/-- `cacheApiResults` with a fallible batch write.  The hash and the
`isCaching` flag are set BEFORE the write; on a write failure the catch
block logs and re-throws and the finally block clears `isCaching` — the
hash set before the attempt is left in place.  `pruneCache` and
`getAllCachedMeetings` swallow their own storage errors (their bodies are
inside try/catch), so only the batch write can propagate. -/
def cacheApiResultsE (beh : StoreBeh) (now : Int) (meetings : List Meeting)
    (s : MgrState) : MgrState × Bool × Option Str :=
  let h := dataHash meetings
  if s.lastApiDataHash = some h then (s, false, none)
  else if s.isCaching then (s, false, none)
  else
    let s1 := { s with isCaching := true, lastApiDataHash := some h }
    let written := cacheMeetingsBatchE beh now (meetings.map toBatchEntry) s1.store
    match written.2 with
    | some e => ({ s1 with store := written.1, isCaching := false }, false, some e)
    | none =>
      let st2 := pruneCache now CACHE_SIZE written.1
      let cached := getAllCachedMeetings now st2
      ({ s1 with store := st2, cachedMeetings := cached, isCaching := false }, true, none)

/-- One page returned by the remote data source (`listMeetings`). -/
structure Page where
  items : List Meeting
  nextCursor : Option Str
deriving DecidableEq, Repr

/-- The result of a paginated loop run. -/
structure LoopResult where
  state : MgrState
  fetched : List Meeting
  cursor : Option Str
  aborted : Bool
deriving DecidableEq, Repr

/-- The `while (cursor && pageNum < MAX_BACKGROUND_PAGES)` loop of
`fetchRemainingPages`.  `oracle` is the remote source (`listMeetings`
closed over the filter); `stops` says, for each awaited page fetch, whether
`stopBackgroundFetch()` is called while that request is in flight (the
request itself still completes — HTTP is not cancelled).  The abort token
is checked before each page request. -/
def bgLoop (oracle : Str → Page) (token : Nat) :
    List Bool → Nat → Option Str → List Meeting → MgrState → LoopResult
  | _, _, none, acc, s => { state := s, fetched := acc, cursor := none, aborted := false }
  | _, 0, some c, acc, s => { state := s, fetched := acc, cursor := some c, aborted := false }
  | stops, fuel + 1, some c, acc, s =>
    if s.remainingPagesToken ≠ token then
      { state := s, fetched := acc, cursor := some c, aborted := true }
    else
      let page := oracle c
      let s' := if stops.headD false then stopBackgroundFetch s else s
      bgLoop oracle token stops.tail fuel page.nextCursor (acc ++ page.items) s'

/-- The `finally` block of `fetchRemainingPages`. -/
def bgFinally (token : Nat) (s : MgrState) : MgrState :=
  if s.remainingPagesToken = token then setFetchingBackground false s else s

/-- `fetchRemainingPages`: capture the token, raise the fetching flag, run
the page loop, re-check the token before the final write, then merge the
combined page-1 + background set, stamp the update time and rewrite the
metadata.  The boolean output reports whether the final cache-write step
ran.  An aborted run discards everything it fetched. -/
def fetchRemainingPages (now : Int) (oracle : Str → Page) (stops : List Bool)
    (startCursor : Str) (alreadyCached : List Meeting) (s : MgrState) :
    LoopResult × Bool :=
  let token := s.remainingPagesToken
  let s0 := setFetchingBackground true s
  let r := bgLoop oracle token stops MAX_BACKGROUND_PAGES (some startCursor) [] s0
  if r.aborted then ({ r with state := bgFinally token r.state }, false)
  else if r.state.remainingPagesToken ≠ token then
    ({ r with state := bgFinally token r.state, aborted := true }, false)
  else
    let s1 := { r.state with nextCursor := r.cursor, hasMoreMeetings := r.cursor.isSome }
    let s2 := (cacheApiResults now (alreadyCached ++ r.fetched) s1).1
    let s3 := { s2 with lastCacheUpdateTime := now }
    let s4 := { s3 with store := updateCacheMetadataFromMeetings now s3.cachedMeetings s3.store }
    ({ r with state := bgFinally token s4 }, true)

/-- The `while (pageCursor && pageNum < MAX_PAGES)` loop of
`loadMoreMeetings`; identical to `bgLoop` except that it watches
`loadMoreToken`. -/
def lmLoop (oracle : Str → Page) (token : Nat) :
    List Bool → Nat → Option Str → List Meeting → MgrState → LoopResult
  | _, _, none, acc, s => { state := s, fetched := acc, cursor := none, aborted := false }
  | _, 0, some c, acc, s => { state := s, fetched := acc, cursor := some c, aborted := false }
  | stops, fuel + 1, some c, acc, s =>
    if s.loadMoreToken ≠ token then
      { state := s, fetched := acc, cursor := some c, aborted := true }
    else
      let page := oracle c
      let s' := if stops.headD false then stopBackgroundFetch s else s
      lmLoop oracle token stops.tail fuel page.nextCursor (acc ++ page.items) s'

/-- The `finally` block of the `loadMoreMeetings` task. -/
def lmFinally (token : Nat) (s : MgrState) : MgrState :=
  let s' := { s with isLoadingMore := false }
  if s'.loadMoreToken = token then setFetchingBackground false s' else s'

/-- `loadMoreMeetings`: re-entrancy guard on `isLoadingMore`, no-op when
exhausted, otherwise bump and capture `loadMoreToken` and run the page-capped
cancellable loop from the stored cursor (the request-queue key contains the
cursor and filter; the task body is what runs here).  Outputs the fetched
meetings and whether the final cache-write step ran. -/
def loadMoreMeetings (now : Int) (oracle : Str → Page) (stops : List Bool)
    (s : MgrState) : MgrState × List Meeting × Bool :=
  if s.isLoadingMore then (s, [], false)
  else
    match s.nextCursor with
    | none => (s, [], false)
    | some cursor =>
      if ¬ s.hasMoreMeetings then (s, [], false)
      else
        let s1 := { s with loadMoreToken := s.loadMoreToken + 1 }
        let token := s1.loadMoreToken
        let s2 := setFetchingBackground true { s1 with isLoadingMore := true }
        let r := lmLoop oracle token stops MAX_PAGES (some cursor) [] s2
        if r.aborted then (lmFinally token r.state, r.fetched, false)
        else if r.state.loadMoreToken ≠ token then (lmFinally token r.state, r.fetched, false)
        else
          let s3 := { r.state with nextCursor := r.cursor, hasMoreMeetings := r.cursor.isSome }
          let s4 := (cacheApiResults now r.fetched s3).1
          let s5 := { s4 with lastCacheUpdateTime := now }
          let s6 := { s5 with store := updateCacheMetadataFromMeetings now s5.cachedMeetings s5.store }
          (lmFinally token s6, r.fetched, true)

/-! ## The request deduplication queue

Modelled from the spec: the Request Deduplication Queue's implementation
(`requestQueue.ts`, exporting `globalQueue` with
`enqueue(key, task, priority)`) is not among the provided sources — only its
caller `cacheManager.ts` is.  Per the spec's contract: if no task is running
for `key` the task starts immediately; a caller arriving while a task for
`key` is running awaits the same in-flight result without re-invoking the
task; on settlement every awaiting caller receives the identical outcome
(value or rejection).  Priority only orders distinct keys and does not
affect deduplication. -/

/-- The settlement of a task: a resolved value or a rejection. -/
inductive Outcome (α : Type) where
  | resolved (value : α)
  | rejected (err : Str)
deriving DecidableEq, Repr

/-- Queue state: per key, the callers awaiting the single in-flight task;
a count of task-body invocations; and the settled caller promises. -/
structure QueueState (α : Type) where
  pending : List (Str × List Nat)
  executions : Nat
  delivered : List (Nat × Outcome α)
deriving DecidableEq, Repr

/-- The empty queue. -/
def emptyQueue (α : Type) : QueueState α :=
  { pending := [], executions := 0, delivered := [] }

/-- A caller invokes `enqueue(key, task)`: if a task for `key` is in flight
the caller just joins its waiters; otherwise the task body is started (one
more execution) and the caller becomes its first waiter. -/
def enqueueArrive {α : Type} (q : QueueState α) (caller : Nat) (key : Str) : QueueState α :=
  match q.pending.find? (fun kv => kv.1 = key) with
  | some _ =>
    let addWaiter := fun (kv : Str × List Nat) =>
      if kv.1 = key then (kv.1, kv.2 ++ [caller]) else kv
    { q with pending := q.pending.map addWaiter }
  | none =>
    { q with pending := q.pending ++ [(key, [caller])], executions := q.executions + 1 }

/-- The in-flight task for `key` settles with outcome `o`: every waiting
caller's promise settles with that same outcome and the key is released. -/
def settleKey {α : Type} (q : QueueState α) (key : Str) (o : Outcome α) : QueueState α :=
  match q.pending.find? (fun kv => kv.1 = key) with
  | some kv =>
    { q with pending := q.pending.filter (fun p => p.1 ≠ key)
             delivered := q.delivered ++ kv.2.map (fun c => (c, o)) }
  | none => q

/-- `n` concurrent callers (ids `0..n-1`) enqueue the same key while the
first caller's task is still in flight. -/
def arriveN {α : Type} (key : Str) : Nat → QueueState α
  | 0 => emptyQueue α
  | n + 1 => enqueueArrive (arriveN key n) n key

/-! ## Spec-side characterizations and sample values -/

/-- The spec's description of a search match: the record's lowercased
searchable text contains every whitespace-separated lowercased term of the
query as a substring. -/
def specMatches (query : Str) (cached : CachedMeetingData) : Bool :=
  ((jsSplitWs (toLowerStr query)).filter (fun t => t ≠ [])).all
    (fun term => strIncludes (searchableText cached) term)

/-- A sample meeting. -/
def m0 : Meeting :=
  { recordingId := "m1".data
    id := none
    title := some "Standup".data
    meetingTitle := none
    summaryText := some "weekly sync".data
    transcriptText := none
    actionItems := none }

/-- A sample cached record (cached at time 0) carrying action items. -/
def d0 : CachedMeetingData :=
  { meeting := m0
    summary := some "weekly sync".data
    transcript := none
    actionItems := some [{ text := "follow up".data }]
    cachedAt := 0
    hash := "m1".data }

/-- A fresh coordinator state over an empty store. -/
def s0 : MgrState :=
  { store := []
    cachedMeetings := []
    isCaching := false
    lastApiDataHash := none
    lastCacheUpdateTime := 0
    nextCursor := none
    hasMoreMeetings := true
    isLoadingMore := false
    remainingPagesToken := 0
    loadMoreToken := 0
    isFetchingBackground := false }

/-- A storage behaviour on which every record write rejects. -/
def behFail : StoreBeh :=
  { setItemFails := fun _ => true
    indexReadFails := false
    indexWriteFails := false
    allItemsFails := false }

/-- The keys of a store, in storage order. -/
def storeKeys (store : Store) : List Str := store.map (fun kv => kv.1)

/-- Record entries sit under the meeting key of their payload's nonempty
recording id — the invariant the coordinator maintains, since every batch
entry it writes uses `meetingId := m.recordingId` and stores `m` itself. -/
def recordsWellKeyed (store : Store) : Prop :=
  ∀ kv ∈ store, ∀ d : CachedMeetingData, kv.2 = StorageValue.recordVal d →
    kv.1 = meetingKey d.meeting.recordingId ∧ d.meeting.recordingId ≠ []

/-- The ids listed in the stored index; `[]` when the index entry is missing
or unparseable. -/
def indexIds (store : Store) : List Str :=
  match getItem store MEETING_INDEX_KEY with
  | some (.idxVal i) => i.meetingIds
  | _ => []

/-- The index entry is absent, or parses to an index with duplicate-free
ids. -/
def WFIndex (store : Store) : Prop :=
  match getItem store MEETING_INDEX_KEY with
  | none => True
  | some (.idxVal i) => i.meetingIds.Nodup
  | some _ => False

/-- A second sample meeting (page-2 material for the cancellation scenario). -/
def mB : Meeting :=
  { recordingId := "m2".data
    id := none
    title := some "Retro".data
    meetingTitle := none
    summaryText := none
    transcriptText := none
    actionItems := none }

/-- A third sample meeting. -/
def mC : Meeting :=
  { recordingId := "m3".data
    id := none
    title := some "Planning".data
    meetingTitle := none
    summaryText := none
    transcriptText := none
    actionItems := none }

/-- A remote source for the cancellation scenario: cursor `c1` yields page 2
(`mB`, continuing at `c2`), cursor `c2` yields page 3 (`mC`, exhausted). -/
def oracleW : Str → Page := fun c =>
  if c = "c1".data then { items := [mB], nextCursor := some "c2".data }
  else if c = "c2".data then { items := [mC], nextCursor := none }
  else { items := [], nextCursor := none }

/-- A second sample cached record (cached at time 100, no action items). -/
def dB6 : CachedMeetingData :=
  { meeting := mB
    summary := none
    transcript := none
    actionItems := none
    cachedAt := 100
    hash := "m2".data }

/-- A two-record store for the prune scenario. -/
def SW6 : Store :=
  [(meetingKey "m1".data, StorageValue.recordVal d0),
   (meetingKey "m2".data, StorageValue.recordVal dB6)]

/-- A coordinator state whose store already holds page 1 (`m0`, written at
time 0). -/
def sW : MgrState :=
  { s0 with store := cacheMeetingsBatch 0 [toBatchEntry m0] [] }

/-! ## Basic facts about keys and entry processing -/

theorem index_key_decomp : MEETING_INDEX_KEY = MEETING_KEY_NS ++ "index".data := by
  decide

theorem ns_isPrefixOf_meetingKey (id : Str) :
    MEETING_KEY_NS.isPrefixOf (meetingKey id) = true := by
  rw [List.isPrefixOf_iff_prefix]
  exact List.prefix_append _ _

theorem meetingKey_eq_index_iff (id : Str) :
    meetingKey id = MEETING_INDEX_KEY ↔ id = "index".data := by
  rw [index_key_decomp, meetingKey, List.append_right_inj]

theorem meetingKey_inj {a b : Str} (h : meetingKey a = meetingKey b) : a = b := by
  rw [meetingKey, meetingKey, List.append_right_inj] at h
  exact h

/-- A record with no action items is unchanged by stripping them. -/
theorem strip_actionItems_none {d : CachedMeetingData} (h : d.actionItems = none) :
    ({ d with actionItems := none } : CachedMeetingData) = d := by
  cases d
  simp_all

/-- `processEntry` on a record entry stored under a meeting key, the branch
structure made explicit. -/
theorem processEntry_record_eq (now : Int) (id : Str) (d : CachedMeetingData)
    (hid : id ≠ "index".data) :
    processEntry now (meetingKey id, .recordVal d) =
      (if ¬ isCacheValid now d.cachedAt MEETINGS_TTL then none
       else if d.actionItems.isSome ∧ ¬ isCacheValid now d.cachedAt ACTION_ITEMS_TTL then
         some { d with actionItems := none }
       else some d) := by
  have h1 : ¬ ¬ (MEETING_KEY_NS.isPrefixOf (meetingKey id)) := by
    simp [ns_isPrefixOf_meetingKey]
  have h2 : ¬ (meetingKey id = MEETING_INDEX_KEY) := fun h =>
    hid ((meetingKey_eq_index_iff id).mp h)
  simp only [processEntry, h1, h2, if_false, ite_false]

/-! ## C3: TTL independence of `readAll` -/

/-- C3: `getAllCachedMeetings` (readAll) processes every stored record entry
by age: past the 30-day record TTL it is not returned at all; within 30 days
but past the 6-hour action-items TTL it is returned with `actionItems`
absent and every other field (meeting payload, summary, transcript,
cachedAt, hash) intact; within both TTLs it is returned unchanged. -/
theorem readAll_ttl_independence (now : Int) (store : Store) (id : Str)
    (d : CachedMeetingData) (hid : id ≠ "index".data) :
    getAllCachedMeetings now store = store.filterMap (processEntry now) ∧
    (now - d.cachedAt > MEETINGS_TTL →
      processEntry now (meetingKey id, .recordVal d) = none) ∧
    (now - d.cachedAt < MEETINGS_TTL → now - d.cachedAt > ACTION_ITEMS_TTL →
      processEntry now (meetingKey id, .recordVal d) =
        some { d with actionItems := none }) ∧
    (now - d.cachedAt < ACTION_ITEMS_TTL →
      processEntry now (meetingKey id, .recordVal d) = some d) := by
  refine ⟨rfl, ?_, ?_, ?_⟩
  · intro h
    rw [processEntry_record_eq now id d hid]
    have hv : ¬ isCacheValid now d.cachedAt MEETINGS_TTL = true := by
      simp only [isCacheValid, decide_eq_true_eq]
      simp only [MEETINGS_TTL] at h ⊢
      omega
    simp [hv]
  · intro h30 h6
    rw [processEntry_record_eq now id d hid]
    have hv : isCacheValid now d.cachedAt MEETINGS_TTL = true := by
      simp only [isCacheValid, decide_eq_true_eq]
      exact h30
    have hv6 : ¬ isCacheValid now d.cachedAt ACTION_ITEMS_TTL = true := by
      simp only [isCacheValid, decide_eq_true_eq]
      simp only [ACTION_ITEMS_TTL] at h6 ⊢
      omega
    cases hai : d.actionItems with
    | none => simp [hv, hv6, hai, strip_actionItems_none hai]
    | some l => simp [hv, hv6, hai]
  · intro h6
    rw [processEntry_record_eq now id d hid]
    have hv6 : isCacheValid now d.cachedAt ACTION_ITEMS_TTL = true := by
      simp only [isCacheValid, decide_eq_true_eq]
      exact h6
    have hv : isCacheValid now d.cachedAt MEETINGS_TTL = true := by
      simp only [isCacheValid, decide_eq_true_eq]
      simp only [ACTION_ITEMS_TTL] at h6
      simp only [MEETINGS_TTL]
      omega
    simp [hv, hv6]

/-- Witness for C3 at a concrete input: 6 hours and 1 ms after caching, the
record is still returned but with its action items stripped. -/
theorem readAll_ttl_independence_witness :
    (21600001 : Int) - d0.cachedAt < MEETINGS_TTL ∧
    (21600001 : Int) - d0.cachedAt > ACTION_ITEMS_TTL ∧
    processEntry 21600001 (meetingKey "m1".data, .recordVal d0) =
      some { d0 with actionItems := none } :=
  ⟨by decide, by decide,
    (readAll_ttl_independence 21600001 [] "m1".data d0 (by decide)).2.2.1
      (by decide) (by decide)⟩

/-! ## C4: search AND-semantics -/

theorem strIncludes_nil (hay : Str) : strIncludes hay [] = true := by
  unfold strIncludes
  cases hay <;> simp [List.isPrefixOf]

theorem all_terms_filter_ne_nil (hay : Str) (ts : List Str) :
    ts.all (fun t => strIncludes hay t) =
      (ts.filter (fun t => t ≠ [])).all (fun t => strIncludes hay t) := by
  induction ts with
  | nil => rfl
  | cons t ts ih =>
    by_cases h : t = []
    · subst h
      simp [strIncludes_nil, ih]
    · simp [h, ih]

/-- C4: for a whitespace-only (or empty) query `searchCachedMeetings`
returns its input unchanged; otherwise it returns exactly the input records
whose lowercased searchable text contains every whitespace-separated
lowercased query term as a substring — a `filter`, so input order is
preserved. -/
theorem search_and_semantics (records : List CachedMeetingData) (query : Str) :
    (jsTrim query = [] → searchCachedMeetings records query = records) ∧
    (jsTrim query ≠ [] →
      searchCachedMeetings records query = records.filter (specMatches query)) := by
  constructor
  · intro h
    simp [searchCachedMeetings, h]
  · intro h
    simp only [searchCachedMeetings, if_neg h]
    exact List.filter_congr
      (fun r _ => all_terms_filter_ne_nil (searchableText r) _)

/-- Witness for C4 at a concrete input. -/
theorem search_and_semantics_witness :
    jsTrim " alpha  beta".data ≠ [] ∧
    searchCachedMeetings [d0] " alpha  beta".data =
      List.filter (specMatches " alpha  beta".data) [d0] :=
  ⟨by decide, (search_and_semantics [d0] " alpha  beta".data).2 (by decide)⟩

/-! ## C10: load-more re-entrancy guard -/

/-- C10: a `loadMoreMeetings` call made while a previous invocation is still
in progress (`isLoadingMore` is set) returns immediately: no page is
fetched, no write happens, and the stored cursor, the `hasMore` flag and the
cached record set are all left untouched. -/
theorem loadMore_reentrancy_guard (now : Int) (oracle : Str → Page)
    (stops : List Bool) (s : MgrState) (h : s.isLoadingMore = true) :
    loadMoreMeetings now oracle stops s = (s, [], false) ∧
    (loadMoreMeetings now oracle stops s).1.nextCursor = s.nextCursor ∧
    (loadMoreMeetings now oracle stops s).1.hasMoreMeetings = s.hasMoreMeetings ∧
    (loadMoreMeetings now oracle stops s).1.cachedMeetings = s.cachedMeetings ∧
    (loadMoreMeetings now oracle stops s).2.1 = [] := by
  have he : loadMoreMeetings now oracle stops s = (s, [], false) := by
    unfold loadMoreMeetings
    simp [h]
  refine ⟨he, ?_, ?_, ?_, ?_⟩ <;> rw [he]

/-- Witness for C10 at a concrete input. -/
theorem loadMore_reentrancy_guard_witness :
    ({ s0 with isLoadingMore := true } : MgrState).isLoadingMore = true ∧
    loadMoreMeetings 0 oracleW [] { s0 with isLoadingMore := true } =
      ({ s0 with isLoadingMore := true }, [], false) :=
  ⟨by decide, (loadMore_reentrancy_guard 0 oracleW [] _ (by decide)).1⟩

/-! ## C9: cancellation tokens of the two fetch paths -/

/-- C9 counterexample: with a background state in flight (fetching flag set,
both loops having captured the current token values 0), the single stop
operation `stopBackgroundFetch` — the spec's "stopping one path" — bumps
BOTH counters, so the other path's captured token no longer equals the
current token either: stopping one path does cancel the other. -/
theorem independent_tokens_cex :
    (stopBackgroundFetch { s0 with isFetchingBackground := true }).remainingPagesToken ≠
      ({ s0 with isFetchingBackground := true } : MgrState).remainingPagesToken ∧
    (stopBackgroundFetch { s0 with isFetchingBackground := true }).loadMoreToken ≠
      ({ s0 with isFetchingBackground := true } : MgrState).loadMoreToken := by
  decide

theorem setFetchingBackground_rpt (v : Bool) (s : MgrState) :
    (setFetchingBackground v s).remainingPagesToken = s.remainingPagesToken := by
  unfold setFetchingBackground
  split <;> rfl

theorem setFetchingBackground_lmt (v : Bool) (s : MgrState) :
    (setFetchingBackground v s).loadMoreToken = s.loadMoreToken := by
  unfold setFetchingBackground
  split <;> rfl

theorem lmFinally_rpt (token : Nat) (s : MgrState) :
    (lmFinally token s).remainingPagesToken = s.remainingPagesToken := by
  simp only [lmFinally]
  split
  · rw [setFetchingBackground_rpt]
  · rfl

theorem cacheApiResults_rpt (now : Int) (meetings : List Meeting) (s : MgrState) :
    (cacheApiResults now meetings s).1.remainingPagesToken = s.remainingPagesToken := by
  unfold cacheApiResults
  by_cases h1 : s.lastApiDataHash = some (dataHash meetings)
  · simp [h1]
  · by_cases h2 : s.isCaching <;> simp [h1, h2]

theorem lmLoop_no_stops_rpt (oracle : Str → Page) (token : Nat) (fuel : Nat) :
    ∀ (cursor : Option Str) (acc : List Meeting) (s : MgrState),
    (lmLoop oracle token [] fuel cursor acc s).state.remainingPagesToken =
      s.remainingPagesToken := by
  induction fuel with
  | zero =>
    intro cursor acc s
    cases cursor <;> rfl
  | succ fuel ih =>
    intro cursor acc s
    cases cursor with
    | none => rfl
    | some c =>
      by_cases h : s.loadMoreToken = token
      · simp [lmLoop, h, ih]
      · simp [lmLoop, h]

/-- C9 amended: the two paths do keep distinct token counters, and the
load-more path (run without any external stop call) never touches
`remainingPagesToken`, so load-more activity cannot cancel a background
remaining-pages loop; but `stopBackgroundFetch` — the only stop operation —
increments BOTH counters, cancelling both paths at once. -/
theorem token_independence_amended :
    (∀ (now : Int) (oracle : Str → Page) (s : MgrState),
      (loadMoreMeetings now oracle [] s).1.remainingPagesToken =
        s.remainingPagesToken) ∧
    (∀ s : MgrState, s.isFetchingBackground = true →
      (stopBackgroundFetch s).remainingPagesToken = s.remainingPagesToken + 1 ∧
      (stopBackgroundFetch s).loadMoreToken = s.loadMoreToken + 1) := by
  constructor
  · intro now oracle s
    by_cases h1 : s.isLoadingMore
    · simp [loadMoreMeetings, h1]
    · cases hc : s.nextCursor with
      | none => simp [loadMoreMeetings, h1, hc]
      | some cursor =>
        by_cases h2 : s.hasMoreMeetings
        · simp only [loadMoreMeetings, h1, Bool.false_eq_true, if_false, hc, h2,
            not_true, ite_false]
          split
          · rw [lmFinally_rpt, lmLoop_no_stops_rpt, setFetchingBackground_rpt]
          · split
            · rw [lmFinally_rpt, lmLoop_no_stops_rpt, setFetchingBackground_rpt]
            · rw [lmFinally_rpt]
              simp only [cacheApiResults_rpt, lmLoop_no_stops_rpt,
                setFetchingBackground_rpt]
        · simp [loadMoreMeetings, h1, hc, h2]
  · intro s h
    unfold stopBackgroundFetch
    rw [if_neg]
    · constructor
      · rw [setFetchingBackground_rpt]
      · rw [setFetchingBackground_lmt]
    · simp [h]

/-- Witness for C9's amended statement at concrete inputs. -/
theorem token_independence_amended_witness :
    (loadMoreMeetings 0 oracleW [] sW).1.remainingPagesToken =
      sW.remainingPagesToken ∧
    ({ s0 with isFetchingBackground := true } : MgrState).isFetchingBackground = true ∧
    (stopBackgroundFetch { s0 with isFetchingBackground := true }).remainingPagesToken =
      ({ s0 with isFetchingBackground := true } : MgrState).remainingPagesToken + 1 :=
  ⟨token_independence_amended.1 0 oracleW sW, by decide,
    (token_independence_amended.2 { s0 with isFetchingBackground := true } (by decide)).1⟩

/-! ## C2: dedup queue collapse (spec-modelled) -/

theorem arriveN_eq {α : Type} (key : Str) (n : Nat) (h : 1 ≤ n) :
    (arriveN key n : QueueState α) =
      { pending := [(key, List.range n)], executions := 1, delivered := [] } := by
  induction n with
  | zero => omega
  | succ n ih =>
    by_cases hn : 1 ≤ n
    · rw [arriveN, ih hn]
      simp [enqueueArrive, List.find?, List.range_succ]
    · have hn0 : n = 0 := by omega
      subst hn0
      simp [arriveN, enqueueArrive, emptyQueue, List.range_succ]

/-- C2: for every N ≥ 1 concurrent `enqueue(key, task)` calls with the same
key arriving while the first caller's task is in flight, the task body is
started exactly once, and when it settles every one of the N callers'
promises settles with that single execution's identical outcome (value or
rejection); callers arriving while the task runs never re-invoke it. -/
theorem dedup_queue_collapse {α : Type} (n : Nat) (h : 1 ≤ n) (key : Str)
    (o : Outcome α) :
    (settleKey (arriveN key n) key o).executions = 1 ∧
    (settleKey (arriveN key n) key o).delivered =
      (List.range n).map (fun c => (c, o)) ∧
    (settleKey (arriveN key n) key o).pending = [] := by
  rw [arriveN_eq key n h]
  simp [settleKey, List.find?]

/-- Witness for C2: three concurrent callers, one execution, all three
delivered the same resolved value. -/
theorem dedup_queue_collapse_witness :
    (1 : Nat) ≤ 3 ∧
    (settleKey (arriveN "fetch-meetings".data 3) "fetch-meetings".data
      (Outcome.resolved (42 : Nat))).executions = 1 ∧
    (settleKey (arriveN "fetch-meetings".data 3) "fetch-meetings".data
      (Outcome.resolved (42 : Nat))).delivered =
      (List.range 3).map (fun c => (c, Outcome.resolved (42 : Nat))) :=
  ⟨by decide, (dedup_queue_collapse 3 (by decide) "fetch-meetings".data
      (Outcome.resolved 42)).1,
    (dedup_queue_collapse 3 (by decide) "fetch-meetings".data
      (Outcome.resolved 42)).2.1⟩

/-! ## C1: cancellation discards background results -/

theorem setFetchingBackground_store (v : Bool) (s : MgrState) :
    (setFetchingBackground v s).store = s.store := by
  unfold setFetchingBackground
  split <;> rfl

theorem stopBackgroundFetch_store (s : MgrState) :
    (stopBackgroundFetch s).store = s.store := by
  unfold stopBackgroundFetch
  split
  · rfl
  · rw [setFetchingBackground_store]

theorem bgFinally_store (token : Nat) (s : MgrState) :
    (bgFinally token s).store = s.store := by
  unfold bgFinally
  split
  · rw [setFetchingBackground_store]
  · rfl

/-- The background page loop itself never writes to storage. -/
theorem bgLoop_store (oracle : Str → Page) (token : Nat) (fuel : Nat) :
    ∀ (stops : List Bool) (cursor : Option Str) (acc : List Meeting) (s : MgrState),
    (bgLoop oracle token stops fuel cursor acc s).state.store = s.store := by
  induction fuel with
  | zero =>
    intro stops cursor acc s
    cases cursor <;> rfl
  | succ fuel ih =>
    intro stops cursor acc s
    cases cursor with
    | none => rfl
    | some c =>
      by_cases h : s.remainingPagesToken = token
      · cases stops with
        | nil => simp [bgLoop, h, ih]
        | cons b bs =>
          cases b
          · simp [bgLoop, h, ih]
          · simp [bgLoop, h, ih, stopBackgroundFetch_store]
      · simp [bgLoop, h]

/-- C1: a run of the background remaining-pages loop that observes a token
mismatch at a checkpoint (before a page request, or at the final check
before the write) returns without running the cache-write step: the store is
exactly as before the run, so a `readAll` afterwards returns exactly what it
returned before — in particular none of the records fetched by that loop
appear in it unless they were already cached before the run. -/
theorem cancellation_discards (now : Int) (oracle : Str → Page)
    (stops : List Bool) (startCursor : Str) (alreadyCached : List Meeting)
    (s : MgrState)
    (h : (fetchRemainingPages now oracle stops startCursor alreadyCached s).1.aborted = true) :
    (fetchRemainingPages now oracle stops startCursor alreadyCached s).2 = false ∧
    (fetchRemainingPages now oracle stops startCursor alreadyCached s).1.state.store = s.store ∧
    getAllCachedMeetings now
        (fetchRemainingPages now oracle stops startCursor alreadyCached s).1.state.store =
      getAllCachedMeetings now s.store ∧
    (∀ m ∈ (fetchRemainingPages now oracle stops startCursor alreadyCached s).1.fetched,
      (∀ d ∈ getAllCachedMeetings now s.store, d.meeting ≠ m) →
      ∀ d ∈ getAllCachedMeetings now
          (fetchRemainingPages now oracle stops startCursor alreadyCached s).1.state.store,
        d.meeting ≠ m) := by
  have hstore :
      (fetchRemainingPages now oracle stops startCursor alreadyCached s).1.state.store = s.store ∧
      (fetchRemainingPages now oracle stops startCursor alreadyCached s).2 = false := by
    simp only [fetchRemainingPages] at h ⊢
    by_cases ha : (bgLoop oracle s.remainingPagesToken stops MAX_BACKGROUND_PAGES
        (some startCursor) [] (setFetchingBackground true s)).aborted = true
    · rw [if_pos ha]
      exact ⟨by simp [bgFinally_store, bgLoop_store, setFetchingBackground_store], rfl⟩
    · rw [if_neg ha] at h ⊢
      by_cases hb : (bgLoop oracle s.remainingPagesToken stops MAX_BACKGROUND_PAGES
          (some startCursor) [] (setFetchingBackground true s)).state.remainingPagesToken ≠
          s.remainingPagesToken
      · rw [if_pos hb]
        exact ⟨by simp [bgFinally_store, bgLoop_store, setFetchingBackground_store], rfl⟩
      · rw [if_neg hb] at h
        exact absurd h ha
  refine ⟨hstore.2, hstore.1, by rw [hstore.1], ?_⟩
  intro m _ hfresh d hd
  rw [hstore.1] at hd
  exact hfresh d hd

/-- Witness for C1, the spec's scenario: page 1 (`m0`) is already cached;
the background loop fetches page 2 (`mB`) during which stop is called; the
loop aborts before fetching page 3 and before the final write, and a readAll
afterwards still contains exactly page 1's record and nothing fetched by the
loop. -/
theorem cancellation_discards_witness :
    (fetchRemainingPages 5 oracleW [true] "c1".data [m0] sW).1.aborted = true ∧
    (fetchRemainingPages 5 oracleW [true] "c1".data [m0] sW).2 = false ∧
    (fetchRemainingPages 5 oracleW [true] "c1".data [m0] sW).1.state.store = sW.store ∧
    (fetchRemainingPages 5 oracleW [true] "c1".data [m0] sW).1.fetched = [mB] ∧
    (∀ d ∈ getAllCachedMeetings 5
        (fetchRemainingPages 5 oracleW [true] "c1".data [m0] sW).1.state.store,
      d.meeting ≠ mB) :=
  ⟨by decide,
    (cancellation_discards 5 oracleW [true] "c1".data [m0] sW (by decide)).1,
    (cancellation_discards 5 oracleW [true] "c1".data [m0] sW (by decide)).2.1,
    by decide,
    (cancellation_discards 5 oracleW [true] "c1".data [m0] sW (by decide)).2.2.2
      mB (by decide) (by decide)⟩

/-! ## C7: the merge-and-write gate -/

/-- C7 counterexample: the claim says the comparison key is the hash of the
last SUCCESSFUL write.  In the code `lastApiDataHash` is assigned before the
write is attempted, so after a write of `[m0]` whose storage writes all
reject (the call returns the error), an immediately following write of the
same batch on healthy storage is skipped — the failed attempt established
the hash that suppresses it. -/
theorem merge_gate_failed_write_cex :
    ((cacheApiResultsE behFail 0 [m0] s0).2.2).isSome = true ∧
    cacheApiResultsE behOk 0 [m0] (cacheApiResultsE behFail 0 [m0] s0).1 =
      ((cacheApiResultsE behFail 0 [m0] s0).1, false, none) := by
  decide

/-- C7 amended: when the id hash of the incoming batch equals the recorded
`lastApiDataHash`, `cacheApiResults` performs no storage write, leaves the
in-memory cached set (and all other state) unchanged, notifies no listeners
and returns without error; however the recorded hash is that of the last
write ATTEMPT — any non-skipped call records the batch's hash before
writing, even if the write then fails. -/
theorem merge_gate_amended :
    (∀ (beh : StoreBeh) (now : Int) (meetings : List Meeting) (s : MgrState),
      s.lastApiDataHash = some (dataHash meetings) →
      cacheApiResultsE beh now meetings s = (s, false, none)) ∧
    (∀ (beh : StoreBeh) (now : Int) (meetings : List Meeting) (s : MgrState),
      s.isCaching = false →
      (cacheApiResultsE beh now meetings s).1.lastApiDataHash =
        some (dataHash meetings)) := by
  constructor
  · intro beh now meetings s h
    simp [cacheApiResultsE, h]
  · intro beh now meetings s h
    by_cases h1 : s.lastApiDataHash = some (dataHash meetings)
    · simp [cacheApiResultsE, h1]
    · simp only [cacheApiResultsE, h1, if_false, h, Bool.false_eq_true, ite_false]
      split <;> rfl

/-- Witness for C7's amended statement at concrete inputs. -/
theorem merge_gate_amended_witness :
    ({ s0 with lastApiDataHash := some (dataHash [m0]) } : MgrState).lastApiDataHash =
      some (dataHash [m0]) ∧
    cacheApiResultsE behOk 0 [m0] { s0 with lastApiDataHash := some (dataHash [m0]) } =
      ({ s0 with lastApiDataHash := some (dataHash [m0]) }, false, none) ∧
    s0.isCaching = false ∧
    (cacheApiResultsE behFail 0 [m0] s0).1.lastApiDataHash = some (dataHash [m0]) :=
  ⟨rfl,
    merge_gate_amended.1 behOk 0 [m0] _ rfl,
    rfl,
    merge_gate_amended.2 behFail 0 [m0] s0 rfl⟩

/-! ## C8: storage-failure containment -/

/-- C8 counterexample: `cacheMeetingsBatch` (writeBatch) does NOT contain
record-write storage failures — the `Promise.all` of `setItem` calls is not
inside a try/catch, so a rejecting record write propagates out of the
call. -/
theorem writeBatch_error_cex :
    (cacheMeetingsBatchE behFail 0 [toBatchEntry m0] []).2 ≠ none := by
  decide

theorem writeMeetingEntriesE_ok (beh : StoreBeh) (now : Int) :
    ∀ (R : List BatchEntry) (store : Store),
    (∀ e ∈ R, beh.setItemFails (meetingKey e.meetingId) = false) →
    (writeMeetingEntriesE beh now R store).2 = false := by
  intro R
  induction R with
  | nil => intro store _; rfl
  | cons e R ih =>
    intro store hall
    have he : beh.setItemFails (meetingKey e.meetingId) = false :=
      hall e (List.mem_cons_self e R)
    have hR : ∀ x ∈ R, beh.setItemFails (meetingKey x.meetingId) = false :=
      fun x hx => hall x (List.mem_cons_of_mem e hx)
    simp only [writeMeetingEntriesE, List.foldl_cons, he, Bool.false_eq_true, ite_false]
    exact ih _ hR

/-- C8 amended: `readAll` never throws — with a failing bulk read it
degrades to the empty list (the error is caught), with a healthy bulk read
it returns exactly the pure read, and a malformed stored entry is always
skipped rather than raised; the index-update step of writeBatch likewise
swallows its own storage errors, so writeBatch returns without error
whenever all record writes succeed — but (per the counterexample) a failing
record write itself does propagate out of writeBatch. -/
theorem storage_failure_amended :
    (∀ (beh : StoreBeh) (now : Int) (store : Store), beh.allItemsFails = true →
      getAllCachedMeetingsECore beh now store = Except.error "storage read failed".data ∧
      getAllCachedMeetingsE beh now store = []) ∧
    (∀ (beh : StoreBeh) (now : Int) (store : Store), beh.allItemsFails = false →
      getAllCachedMeetingsE beh now store = getAllCachedMeetings now store) ∧
    (∀ (now : Int) (k : Str), processEntry now (k, StorageValue.malformed) = none) ∧
    (∀ (beh : StoreBeh) (now : Int) (R : List BatchEntry) (store : Store),
      (∀ e ∈ R, beh.setItemFails (meetingKey e.meetingId) = false) →
      (cacheMeetingsBatchE beh now R store).2 = none) := by
  refine ⟨?_, ?_, ?_, ?_⟩
  · intro beh now store h
    constructor
    · simp [getAllCachedMeetingsECore, h]
    · simp [getAllCachedMeetingsE, getAllCachedMeetingsECore, h]
  · intro beh now store h
    simp [getAllCachedMeetingsE, getAllCachedMeetingsECore, h, getAllCachedMeetings]
  · intro now k
    unfold processEntry
    split
    · rfl
    · split
      · rfl
      · rfl
  · intro beh now R store hall
    simp only [cacheMeetingsBatchE, writeMeetingEntriesE_ok beh now R store hall,
      Bool.false_eq_true, ite_false]

/-- Witness for C8's amended statement at concrete inputs. -/
theorem storage_failure_amended_witness :
    ({ behOk with allItemsFails := true } : StoreBeh).allItemsFails = true ∧
    getAllCachedMeetingsE { behOk with allItemsFails := true } 0
      [(meetingKey "m1".data, StorageValue.recordVal d0)] = [] ∧
    behOk.allItemsFails = false ∧
    getAllCachedMeetingsE behOk 21600001 [(meetingKey "m1".data, StorageValue.recordVal d0)] =
      getAllCachedMeetings 21600001 [(meetingKey "m1".data, StorageValue.recordVal d0)] ∧
    (∀ e ∈ [toBatchEntry m0], behOk.setItemFails (meetingKey e.meetingId) = false) ∧
    (cacheMeetingsBatchE behOk 0 [toBatchEntry m0] []).2 = none :=
  ⟨rfl,
    (storage_failure_amended.1 { behOk with allItemsFails := true } 0
      [(meetingKey "m1".data, StorageValue.recordVal d0)] rfl).2,
    rfl,
    storage_failure_amended.2.1 behOk 21600001
      [(meetingKey "m1".data, StorageValue.recordVal d0)] rfl,
    by decide,
    storage_failure_amended.2.2.2 behOk 0 [toBatchEntry m0] [] (by decide)⟩

/-! ## Store toolkit: `setItem` / `getItem` / keys -/

theorem storeKeys_cons (a : Str × StorageValue) (st : Store) :
    storeKeys (a :: st) = a.1 :: storeKeys st := rfl

theorem any_key_iff (st : Store) (k : Str) :
    st.any (fun kv => kv.1 = k) = true ↔ k ∈ storeKeys st := by
  simp [List.any_eq_true, storeKeys, List.mem_map]

theorem setItem_of_mem {st : Store} {k : Str} (h : k ∈ storeKeys st) (v : StorageValue) :
    setItem st k v = st.map (fun kv => if kv.1 = k then (k, v) else kv) := by
  unfold setItem
  rw [if_pos ((any_key_iff st k).mpr h)]

theorem setItem_of_not_mem {st : Store} {k : Str} (h : k ∉ storeKeys st) (v : StorageValue) :
    setItem st k v = st ++ [(k, v)] := by
  unfold setItem
  rw [if_neg]
  intro hc
  exact h ((any_key_iff st k).mp hc)

theorem storeKeys_setItem_of_mem {st : Store} {k : Str} (h : k ∈ storeKeys st)
    (v : StorageValue) : storeKeys (setItem st k v) = storeKeys st := by
  rw [setItem_of_mem h]
  unfold storeKeys
  rw [List.map_map]
  apply List.map_congr_left
  intro kv _
  by_cases hk : kv.1 = k <;> simp [Function.comp, hk]

theorem storeKeys_setItem_of_not_mem {st : Store} {k : Str} (h : k ∉ storeKeys st)
    (v : StorageValue) : storeKeys (setItem st k v) = storeKeys st ++ [k] := by
  rw [setItem_of_not_mem h]
  simp [storeKeys]

theorem storeKeys_setItem_nodup {st : Store} {k : Str} (v : StorageValue)
    (hn : (storeKeys st).Nodup) : (storeKeys (setItem st k v)).Nodup := by
  by_cases h : k ∈ storeKeys st
  · rw [storeKeys_setItem_of_mem h]
    exact hn
  · rw [storeKeys_setItem_of_not_mem h]
    simp [List.nodup_append, hn, h]

theorem getItem_cons_pos {kv : Str × StorageValue} {st : Store} {k : Str}
    (h : kv.1 = k) : getItem (kv :: st) k = some kv.2 := by
  unfold getItem
  rw [List.find?_cons_of_pos _ (by simp [h])]
  rfl

theorem getItem_cons_neg {kv : Str × StorageValue} {st : Store} {k : Str}
    (h : ¬ kv.1 = k) : getItem (kv :: st) k = getItem st k := by
  unfold getItem
  rw [List.find?_cons_of_neg _ (by simp [h])]

theorem getItem_isSome_iff (st : Store) (k : Str) :
    (getItem st k).isSome = true ↔ k ∈ storeKeys st := by
  induction st with
  | nil => simp [getItem, storeKeys]
  | cons kv st ih =>
    by_cases h : kv.1 = k
    · rw [getItem_cons_pos h]
      simp [storeKeys, h]
    · rw [getItem_cons_neg h]
      simp [storeKeys, h] at ih ⊢
      constructor
      · intro hs
        exact Or.inr (ih.mp hs)
      · rintro (hc | hm)
        · exact absurd hc.symm h
        · exact ih.mpr hm

theorem getItem_append_self {st : Store} {k : Str} (h : k ∉ storeKeys st)
    (v : StorageValue) : getItem (st ++ [(k, v)]) k = some v := by
  induction st with
  | nil => exact getItem_cons_pos rfl
  | cons kv st ih =>
    have h1 : ¬ kv.1 = k := by
      intro hc
      exact h (by simp [storeKeys, hc])
    have h2 : k ∉ storeKeys st := fun hc => h (by simp [storeKeys] at hc ⊢; exact Or.inr hc)
    rw [List.cons_append, getItem_cons_neg h1]
    exact ih h2

theorem getItem_append_ne {st : Store} {k k' : Str} (h : ¬ k' = k)
    (v : StorageValue) : getItem (st ++ [(k, v)]) k' = getItem st k' := by
  induction st with
  | nil =>
    rw [List.nil_append, getItem_cons_neg (by simpa using fun hc => h hc.symm)]
  | cons kv st ih =>
    by_cases h1 : kv.1 = k'
    · rw [List.cons_append, getItem_cons_pos h1, getItem_cons_pos h1]
    · rw [List.cons_append, getItem_cons_neg h1, getItem_cons_neg h1]
      exact ih

theorem getItem_replaceMap_self (st : Store) (k : Str) (v : StorageValue) :
    getItem (st.map (fun kv => if kv.1 = k then (k, v) else kv)) k =
      (getItem st k).map (fun _ => v) := by
  induction st with
  | nil => rfl
  | cons kv st ih =>
    by_cases h : kv.1 = k
    · rw [List.map_cons, if_pos h, getItem_cons_pos (rfl : (k, v).1 = k),
        getItem_cons_pos h]
      rfl
    · rw [List.map_cons, if_neg h, getItem_cons_neg h, getItem_cons_neg h]
      exact ih

theorem getItem_replaceMap_ne (st : Store) {k k' : Str} (h : ¬ k' = k)
    (v : StorageValue) :
    getItem (st.map (fun kv => if kv.1 = k then (k, v) else kv)) k' =
      getItem st k' := by
  induction st with
  | nil => rfl
  | cons kv st ih =>
    by_cases h1 : kv.1 = k
    · have h2 : ¬ (k, v).1 = k' := fun hc => h (hc.symm)
      have h3 : ¬ kv.1 = k' := by
        rw [h1]
        exact fun hc => h hc.symm
      rw [List.map_cons, if_pos h1, getItem_cons_neg h2, getItem_cons_neg h3]
      exact ih
    · by_cases h2 : kv.1 = k'
      · rw [List.map_cons, if_neg h1, getItem_cons_pos h2, getItem_cons_pos h2]
      · rw [List.map_cons, if_neg h1, getItem_cons_neg h2, getItem_cons_neg h2]
        exact ih

theorem getItem_setItem_self (st : Store) (k : Str) (v : StorageValue) :
    getItem (setItem st k v) k = some v := by
  by_cases h : k ∈ storeKeys st
  · rw [setItem_of_mem h, getItem_replaceMap_self]
    obtain ⟨w, hw⟩ := Option.isSome_iff_exists.mp ((getItem_isSome_iff st k).mpr h)
    rw [hw]
    rfl
  · rw [setItem_of_not_mem h]
    exact getItem_append_self h v

theorem getItem_setItem_ne (st : Store) {k k' : Str} (h : ¬ k' = k)
    (v : StorageValue) : getItem (setItem st k v) k' = getItem st k' := by
  by_cases hm : k ∈ storeKeys st
  · rw [setItem_of_mem hm]
    exact getItem_replaceMap_ne st h v
  · rw [setItem_of_not_mem hm]
    exact getItem_append_ne h v

theorem getItem_eq_of_mem_nodup {st : Store} {kv : Str × StorageValue} {k : Str}
    (hn : (storeKeys st).Nodup) (hkv : kv ∈ st) (hk : kv.1 = k) :
    getItem st k = some kv.2 := by
  induction st with
  | nil => cases hkv
  | cons a st ih =>
    rw [storeKeys_cons] at hn
    obtain ⟨h1, h2⟩ := List.nodup_cons.mp hn
    rcases List.mem_cons.mp hkv with rfl | hm
    · exact getItem_cons_pos hk
    · have hks : k ∈ storeKeys st := List.mem_map.mpr ⟨kv, hm, hk⟩
      have ha : ¬ a.1 = k := fun hc => h1 (hc ▸ hks)
      rw [getItem_cons_neg ha]
      exact ih h2 hm

theorem setItem_unchanged {st : Store} {k : Str} {v : StorageValue}
    (hn : (storeKeys st).Nodup) (hw : getItem st k = some v) :
    setItem st k v = st := by
  have hm : k ∈ storeKeys st := (getItem_isSome_iff st k).mp (by rw [hw]; rfl)
  rw [setItem_of_mem hm]
  conv_rhs => rw [← List.map_id st]
  apply List.map_congr_left
  intro kv hkv
  by_cases hk : kv.1 = k
  · have := getItem_eq_of_mem_nodup hn hkv hk
    rw [hw] at this
    have hv : kv.2 = v := by injection this.symm
    simp only [if_pos hk, id]
    rw [← hk, ← hv]
  · simp [hk]

theorem mem_setItem {st : Store} {k : Str} {v : StorageValue}
    {kv' : Str × StorageValue}
    (h : kv' ∈ setItem st k v) : kv' ∈ st ∨ kv' = (k, v) := by
  by_cases hm : k ∈ storeKeys st
  · rw [setItem_of_mem hm] at h
    obtain ⟨kv, hkv, heq⟩ := List.mem_map.mp h
    by_cases hk : kv.1 = k
    · rw [if_pos hk] at heq
      exact Or.inr heq.symm
    · rw [if_neg hk] at heq
      exact Or.inl (heq ▸ hkv)
  · rw [setItem_of_not_mem hm] at h
    rcases List.mem_append.mp h with hl | hr
    · exact Or.inl hl
    · exact Or.inr (List.mem_singleton.mp hr)

/-! ## Lemmas about the batch record writes -/

theorem writeMeetingEntries_cons (now : Int) (e : BatchEntry) (R : List BatchEntry)
    (st : Store) :
    writeMeetingEntries now (e :: R) st =
      writeMeetingEntries now R
        (setItem st (meetingKey e.meetingId) (.recordVal (entryRecord now e))) := rfl

theorem storeKeys_writeMeetingEntries_nodup (now : Int) :
    ∀ (R : List BatchEntry) (st : Store),
    (storeKeys st).Nodup → (storeKeys (writeMeetingEntries now R st)).Nodup := by
  intro R
  induction R with
  | nil => intro st h; exact h
  | cons e R ih =>
    intro st h
    exact ih _ (storeKeys_setItem_nodup _ h)

theorem getItem_writeMeetingEntries_ne (now : Int) :
    ∀ (R : List BatchEntry) (st : Store) (k : Str),
    (∀ e ∈ R, ¬ k = meetingKey e.meetingId) →
    getItem (writeMeetingEntries now R st) k = getItem st k := by
  intro R
  induction R with
  | nil => intro st k _; rfl
  | cons e R ih =>
    intro st k h
    rw [writeMeetingEntries_cons, ih _ _ (fun x hx => h x (List.mem_cons_of_mem e hx)),
      getItem_setItem_ne st (h e (List.mem_cons_self e R))]

theorem getItem_writeMeetingEntries_self (now : Int) :
    ∀ (R : List BatchEntry) (st : Store),
    (R.map (fun e => e.meetingId)).Nodup →
    ∀ e ∈ R, getItem (writeMeetingEntries now R st) (meetingKey e.meetingId) =
      some (.recordVal (entryRecord now e)) := by
  intro R
  induction R with
  | nil => intro st _ e he; cases he
  | cons e1 R ih =>
    intro st hnd e he
    have hnd2 : (R.map (fun x => x.meetingId)).Nodup := (List.nodup_cons.mp hnd).2
    rcases List.mem_cons.mp he with rfl | hm
    · rw [writeMeetingEntries_cons]
      rw [getItem_writeMeetingEntries_ne now R _ _ ?hne, getItem_setItem_self]
      case hne =>
        intro x hx hc
        have hid : e.meetingId = x.meetingId := meetingKey_inj hc
        refine (List.nodup_cons.mp hnd).1 ?_
        show e.meetingId ∈ List.map (fun e => e.meetingId) R
        rw [hid]
        exact List.mem_map.mpr ⟨x, hx, rfl⟩
    · rw [writeMeetingEntries_cons]
      exact ih _ hnd2 e hm

theorem writeMeetingEntries_unchanged (now : Int) :
    ∀ (R : List BatchEntry) (st : Store),
    (storeKeys st).Nodup →
    (∀ e ∈ R, getItem st (meetingKey e.meetingId) =
      some (.recordVal (entryRecord now e))) →
    writeMeetingEntries now R st = st := by
  intro R
  induction R with
  | nil => intro st _ _; rfl
  | cons e R ih =>
    intro st hn h
    rw [writeMeetingEntries_cons, setItem_unchanged hn (h e (List.mem_cons_self e R))]
    exact ih st hn (fun x hx => h x (List.mem_cons_of_mem e hx))

theorem recordsWellKeyed_setItem {st : Store} {k : Str} {v : StorageValue}
    (hwf : recordsWellKeyed st)
    (hv : ∀ d : CachedMeetingData, v = .recordVal d →
      k = meetingKey d.meeting.recordingId ∧ d.meeting.recordingId ≠ []) :
    recordsWellKeyed (setItem st k v) := by
  intro kv hkv d hd
  rcases mem_setItem hkv with hm | rfl
  · exact hwf kv hm d hd
  · exact hv d hd

theorem recordsWellKeyed_writeMeetingEntries (now : Int) :
    ∀ (R : List BatchEntry) (st : Store),
    recordsWellKeyed st →
    (∀ e ∈ R, e.meetingId = e.meeting.recordingId ∧ e.meetingId ≠ []) →
    recordsWellKeyed (writeMeetingEntries now R st) := by
  intro R
  induction R with
  | nil => intro st hwf _; exact hwf
  | cons e R ih =>
    intro st hwf hR
    rw [writeMeetingEntries_cons]
    apply ih
    · apply recordsWellKeyed_setItem hwf
      intro d hd
      have hde : d = entryRecord now e := by
        injection hd.symm
      subst hde
      obtain ⟨h1, h2⟩ := hR e (List.mem_cons_self e R)
      constructor
      · show meetingKey e.meetingId = meetingKey (entryRecord now e).meeting.recordingId
        rw [show (entryRecord now e).meeting = e.meeting from rfl, ← h1]
      · show (entryRecord now e).meeting.recordingId ≠ []
        rw [show (entryRecord now e).meeting = e.meeting from rfl, ← h1]
        exact h2
    · exact fun x hx => hR x (List.mem_cons_of_mem e hx)

/-! ## Lemmas about the index merge fold -/

theorem indexStep_pos {p : CachedMeetingIndex × Bool} {m : Str}
    (h : m ∈ p.1.meetingIds) : indexStep p m = p := by
  unfold indexStep
  rw [if_pos h]

theorem indexStep_neg {p : CachedMeetingIndex × Bool} {m : Str}
    (h : m ∉ p.1.meetingIds) :
    indexStep p m = ({ p.1 with meetingIds := p.1.meetingIds ++ [m] }, true) := by
  unfold indexStep
  rw [if_neg h]

theorem indexFold_mem : ∀ (mids : List Str) (p : CachedMeetingIndex × Bool) (x : Str),
    x ∈ (mids.foldl indexStep p).1.meetingIds ↔ x ∈ p.1.meetingIds ∨ x ∈ mids := by
  intro mids
  induction mids with
  | nil => intro p x; simp
  | cons m mids ih =>
    intro p x
    rw [List.foldl_cons]
    by_cases hm : m ∈ p.1.meetingIds
    · rw [indexStep_pos hm, ih]
      constructor
      · rintro (h | h)
        · exact Or.inl h
        · exact Or.inr (List.mem_cons_of_mem m h)
      · rintro (h | h)
        · exact Or.inl h
        · rcases List.mem_cons.mp h with rfl | h2
          · exact Or.inl hm
          · exact Or.inr h2
    · rw [indexStep_neg hm, ih]
      dsimp only
      constructor
      · rintro (h | h)
        · rcases List.mem_append.mp h with h1 | h1
          · exact Or.inl h1
          · exact Or.inr (List.mem_cons.mpr (Or.inl (List.mem_singleton.mp h1)))
        · exact Or.inr (List.mem_cons_of_mem m h)
      · rintro (h | h)
        · exact Or.inl (List.mem_append.mpr (Or.inl h))
        · rcases List.mem_cons.mp h with rfl | h2
          · exact Or.inl (List.mem_append.mpr (Or.inr (List.mem_singleton.mpr rfl)))
          · exact Or.inr h2

theorem indexFold_nochange : ∀ (mids : List Str) (p : CachedMeetingIndex × Bool),
    (∀ m ∈ mids, m ∈ p.1.meetingIds) → mids.foldl indexStep p = p := by
  intro mids
  induction mids with
  | nil => intro p _; rfl
  | cons m mids ih =>
    intro p h
    rw [List.foldl_cons, indexStep_pos (h m (List.mem_cons_self m mids))]
    exact ih p (fun x hx => h x (List.mem_cons_of_mem m hx))

theorem indexFold_flag_mono : ∀ (mids : List Str) (p : CachedMeetingIndex × Bool),
    p.2 = true → (mids.foldl indexStep p).2 = true := by
  intro mids
  induction mids with
  | nil => intro p h; exact h
  | cons m mids ih =>
    intro p h
    rw [List.foldl_cons]
    by_cases hm : m ∈ p.1.meetingIds
    · rw [indexStep_pos hm]
      exact ih p h
    · rw [indexStep_neg hm]
      exact ih _ rfl

theorem indexFold_all_mem_of_not_changed :
    ∀ (mids : List Str) (p : CachedMeetingIndex × Bool),
    (mids.foldl indexStep p).2 = false → ∀ m ∈ mids, m ∈ p.1.meetingIds := by
  intro mids
  induction mids with
  | nil => intro p _ m hm; cases hm
  | cons m0 mids ih =>
    intro p hres m hm
    rw [List.foldl_cons] at hres
    by_cases h0 : m0 ∈ p.1.meetingIds
    · rw [indexStep_pos h0] at hres
      rcases List.mem_cons.mp hm with rfl | h2
      · exact h0
      · exact ih p hres m h2
    · rw [indexStep_neg h0] at hres
      rw [indexFold_flag_mono mids _ rfl] at hres
      cases hres

theorem indexFold_nodup : ∀ (mids : List Str) (p : CachedMeetingIndex × Bool),
    p.1.meetingIds.Nodup → (mids.foldl indexStep p).1.meetingIds.Nodup := by
  intro mids
  induction mids with
  | nil => intro p h; exact h
  | cons m mids ih =>
    intro p h
    rw [List.foldl_cons]
    by_cases hm : m ∈ p.1.meetingIds
    · rw [indexStep_pos hm]
      exact ih p h
    · rw [indexStep_neg hm]
      apply ih
      simp [List.nodup_append, h, hm]

/-! ## Lemmas about `updateMeetingIndexBatch` -/

theorem updateMeetingIndexBatch_eq (now : Int) (mids : List Str) (st : Store) :
    updateMeetingIndexBatch now mids st =
      (match getItem st MEETING_INDEX_KEY with
      | none =>
        let merged := mids.foldl indexStep ({ meetingIds := [], lastUpdated := now }, false)
        if merged.2 then
          setItem st MEETING_INDEX_KEY (.idxVal { merged.1 with lastUpdated := now })
        else st
      | some (.idxVal i) =>
        let merged := mids.foldl indexStep (i, false)
        if merged.2 then
          setItem st MEETING_INDEX_KEY (.idxVal { merged.1 with lastUpdated := now })
        else st
      | some _ => st) := by
  rcases h : getItem st MEETING_INDEX_KEY with _ | v
  · simp [updateMeetingIndexBatch, h]
  · cases v <;> simp [updateMeetingIndexBatch, h]

theorem updateMeetingIndexBatch_structure (now : Int) (mids : List Str) (st : Store) :
    updateMeetingIndexBatch now mids st = st ∨
    ∃ w : CachedMeetingIndex,
      updateMeetingIndexBatch now mids st = setItem st MEETING_INDEX_KEY (.idxVal w) := by
  rw [updateMeetingIndexBatch_eq]
  rcases hgi : getItem st MEETING_INDEX_KEY with _ | v
  · dsimp only
    split
    · exact Or.inr ⟨_, rfl⟩
    · exact Or.inl rfl
  · cases v
    case idxVal i =>
      dsimp only
      split
      · exact Or.inr ⟨_, rfl⟩
      · exact Or.inl rfl
    all_goals exact Or.inl rfl

theorem storeKeys_updateMeetingIndexBatch_nodup {st : Store} (now : Int)
    (mids : List Str) (h : (storeKeys st).Nodup) :
    (storeKeys (updateMeetingIndexBatch now mids st)).Nodup := by
  rcases updateMeetingIndexBatch_structure now mids st with he | ⟨w, he⟩ <;> rw [he]
  · exact h
  · exact storeKeys_setItem_nodup _ h

theorem recordsWellKeyed_updateMeetingIndexBatch {st : Store} (now : Int)
    (mids : List Str) (hwf : recordsWellKeyed st) :
    recordsWellKeyed (updateMeetingIndexBatch now mids st) := by
  rcases updateMeetingIndexBatch_structure now mids st with he | ⟨w, he⟩ <;> rw [he]
  · exact hwf
  · exact recordsWellKeyed_setItem hwf (fun d hd => by cases hd)

theorem getItem_updateMeetingIndexBatch_ne {st : Store} {k : Str} (now : Int)
    (mids : List Str) (hk : ¬ k = MEETING_INDEX_KEY) :
    getItem (updateMeetingIndexBatch now mids st) k = getItem st k := by
  rcases updateMeetingIndexBatch_structure now mids st with he | ⟨w, he⟩ <;> rw [he]
  exact getItem_setItem_ne st hk _

/-! ## C5: idempotence of writeBatch -/

/-- The store-level idempotence at the heart of C5: writing the same batch
twice (at the same clock reading) leaves the store exactly as after a single
write. -/
theorem cacheMeetingsBatch_idem (now : Int) (S : Store) (R : List BatchEntry)
    (hkeys : (storeKeys S).Nodup)
    (hids : (R.map (fun e => e.meetingId)).Nodup)
    (hne : ∀ e ∈ R, e.meetingId ≠ "index".data) :
    cacheMeetingsBatch now R (cacheMeetingsBatch now R S) =
      cacheMeetingsBatch now R S := by
  have hkne : ∀ e ∈ R, ¬ MEETING_INDEX_KEY = meetingKey e.meetingId := by
    intro e he hc
    exact hne e he ((meetingKey_eq_index_iff _).mp hc.symm)
  have hkne2 : ∀ e ∈ R, ¬ meetingKey e.meetingId = MEETING_INDEX_KEY := by
    intro e he hc
    exact hkne e he hc.symm
  have hkeys1 : (storeKeys (writeMeetingEntries now R S)).Nodup :=
    storeKeys_writeMeetingEntries_nodup now R S hkeys
  have hIdx1 : getItem (writeMeetingEntries now R S) MEETING_INDEX_KEY =
      getItem S MEETING_INDEX_KEY :=
    getItem_writeMeetingEntries_ne now R S _ hkne
  have hrec1 : ∀ e ∈ R, getItem (writeMeetingEntries now R S) (meetingKey e.meetingId) =
      some (.recordVal (entryRecord now e)) :=
    getItem_writeMeetingEntries_self now R S hids
  -- facts about the store after the first full batch
  have hkeysS1 : (storeKeys (cacheMeetingsBatch now R S)).Nodup :=
    storeKeys_updateMeetingIndexBatch_nodup now _ hkeys1
  have hrecS1 : ∀ e ∈ R, getItem (cacheMeetingsBatch now R S) (meetingKey e.meetingId) =
      some (.recordVal (entryRecord now e)) := by
    intro e he
    unfold cacheMeetingsBatch
    rw [getItem_updateMeetingIndexBatch_ne now _ (hkne2 e he)]
    exact hrec1 e he
  -- the second record-write pass is a no-op
  have hw2 : writeMeetingEntries now R (cacheMeetingsBatch now R S) =
      cacheMeetingsBatch now R S :=
    writeMeetingEntries_unchanged now R _ hkeysS1 hrecS1
  -- the second index pass is a no-op
  show updateMeetingIndexBatch now (R.map (fun e => e.meetingId))
      (writeMeetingEntries now R (cacheMeetingsBatch now R S)) = cacheMeetingsBatch now R S
  rw [hw2]
  -- case analysis on the original index entry
  rcases hgi : getItem S MEETING_INDEX_KEY with _ | v
  · -- no index yet: the first pass either created one holding all ids, or
    -- (no id to add) left the store without an index
    by_cases hch : ((R.map (fun e => e.meetingId)).foldl indexStep
        ({ meetingIds := [], lastUpdated := now }, false)).2 = true
    · have hS1 : cacheMeetingsBatch now R S =
          setItem (writeMeetingEntries now R S) MEETING_INDEX_KEY
            (.idxVal { ((R.map (fun e => e.meetingId)).foldl indexStep
              ({ meetingIds := [], lastUpdated := now }, false)).1 with lastUpdated := now }) := by
        show updateMeetingIndexBatch now (R.map (fun e => e.meetingId))
            (writeMeetingEntries now R S) = _
        rw [updateMeetingIndexBatch_eq, hIdx1, hgi]
        dsimp only
        rw [if_pos hch]
      rw [updateMeetingIndexBatch_eq, hS1, getItem_setItem_self]
      dsimp only
      rw [indexFold_nochange _ _ ?hall]
      case hall =>
        intro m hm
        show m ∈ ((R.map (fun e => e.meetingId)).foldl indexStep
          ({ meetingIds := [], lastUpdated := now }, false)).1.meetingIds
        exact (indexFold_mem _ _ _).mpr (Or.inr hm)
      rw [← hS1, if_neg (by simp)]
    · have hS1 : cacheMeetingsBatch now R S = writeMeetingEntries now R S := by
        show updateMeetingIndexBatch now (R.map (fun e => e.meetingId))
            (writeMeetingEntries now R S) = _
        rw [updateMeetingIndexBatch_eq, hIdx1, hgi]
        dsimp only
        rw [if_neg hch]
      rw [updateMeetingIndexBatch_eq, hS1, hIdx1, hgi]
      dsimp only
      rw [if_neg hch]
  · cases v
    case idxVal i =>
      by_cases hch : ((R.map (fun e => e.meetingId)).foldl indexStep (i, false)).2 = true
      · have hS1 : cacheMeetingsBatch now R S =
            setItem (writeMeetingEntries now R S) MEETING_INDEX_KEY
              (.idxVal { ((R.map (fun e => e.meetingId)).foldl indexStep
                (i, false)).1 with lastUpdated := now }) := by
          show updateMeetingIndexBatch now (R.map (fun e => e.meetingId))
              (writeMeetingEntries now R S) = _
          rw [updateMeetingIndexBatch_eq, hIdx1, hgi]
          dsimp only
          rw [if_pos hch]
        rw [updateMeetingIndexBatch_eq, hS1, getItem_setItem_self]
        dsimp only
        rw [indexFold_nochange _ _ ?hall]
        case hall =>
          intro m hm
          show m ∈ ((R.map (fun e => e.meetingId)).foldl indexStep
            (i, false)).1.meetingIds
          exact (indexFold_mem _ _ _).mpr (Or.inr hm)
        rw [← hS1, if_neg (by simp)]
      · have hall : ∀ m ∈ R.map (fun e => e.meetingId), m ∈ i.meetingIds := by
          intro m hm
          have hf : ((R.map (fun e => e.meetingId)).foldl indexStep (i, false)).2 = false := by
            revert hch
            cases ((R.map (fun e => e.meetingId)).foldl indexStep (i, false)).2 <;> simp
          exact indexFold_all_mem_of_not_changed _ _ hf m hm
        have hS1 : cacheMeetingsBatch now R S = writeMeetingEntries now R S := by
          show updateMeetingIndexBatch now (R.map (fun e => e.meetingId))
              (writeMeetingEntries now R S) = _
          rw [updateMeetingIndexBatch_eq, hIdx1, hgi]
          dsimp only
          rw [if_neg hch]
        rw [updateMeetingIndexBatch_eq, hS1, hIdx1, hgi]
        dsimp only
        rw [if_neg hch]
    all_goals
      have hS1 : cacheMeetingsBatch now R S = writeMeetingEntries now R S := by
        show updateMeetingIndexBatch now (R.map (fun e => e.meetingId))
            (writeMeetingEntries now R S) = _
        rw [updateMeetingIndexBatch_eq, hIdx1, hgi]
      all_goals
        rw [updateMeetingIndexBatch_eq, hS1, hIdx1, hgi]

/-- Anything `processEntry` returns comes from a record entry, and carries
that record's meeting payload (only `actionItems` can have been stripped). -/
theorem processEntry_shape {now : Int} {kv : Str × StorageValue} {m : CachedMeetingData}
    (h : processEntry now kv = some m) :
    ∃ d, kv.2 = StorageValue.recordVal d ∧ m.meeting = d.meeting := by
  unfold processEntry at h
  split at h
  · cases h
  · split at h
    · cases h
    · split at h
      · rename_i d hd
        split at h
        · cases h
        · split at h
          · refine ⟨d, hd, ?_⟩
            injection h with h2
            rw [← h2]
          · refine ⟨d, hd, ?_⟩
            injection h with h2
            rw [← h2]
      · cases h

/-- Under well-keyedness and key uniqueness, the records returned by
`readAll` have pairwise-distinct recording ids. -/
theorem readAll_ids_nodup (now : Int) :
    ∀ (st : Store), (storeKeys st).Nodup → recordsWellKeyed st →
    ((st.filterMap (processEntry now)).map (fun m => m.meeting.recordingId)).Nodup := by
  intro st
  induction st with
  | nil => intro _ _; simp
  | cons kv st ih =>
    intro hn hwf
    rw [storeKeys_cons] at hn
    obtain ⟨h1, h2⟩ := List.nodup_cons.mp hn
    have hwf2 : recordsWellKeyed st := fun x hx => hwf x (List.mem_cons_of_mem kv hx)
    cases hpe : processEntry now kv with
    | none =>
      rw [show List.filterMap (processEntry now) (kv :: st) =
        List.filterMap (processEntry now) st by simp [List.filterMap_cons, hpe]]
      exact ih h2 hwf2
    | some m =>
      rw [show List.filterMap (processEntry now) (kv :: st) =
        m :: List.filterMap (processEntry now) st by simp [List.filterMap_cons, hpe],
        List.map_cons]
      refine List.nodup_cons.mpr ⟨?_, ih h2 hwf2⟩
      intro hmem
      obtain ⟨m2, hm2, hideq⟩ := List.mem_map.mp hmem
      obtain ⟨kv2, hkv2, hpe2⟩ := List.mem_filterMap.mp hm2
      obtain ⟨d, hd, hmeet⟩ := processEntry_shape hpe
      obtain ⟨d2, hd2, hmeet2⟩ := processEntry_shape hpe2
      have hk : kv.1 = meetingKey d.meeting.recordingId :=
        (hwf kv (List.mem_cons_self kv st) d hd).1
      have hk2 : kv2.1 = meetingKey d2.meeting.recordingId :=
        (hwf kv2 (List.mem_cons_of_mem kv hkv2) d2 hd2).1
      have hsame : kv2.1 = kv.1 := by
        rw [hk, hk2, ← hmeet, ← hmeet2, hideq]
      exact h1 (hsame ▸ List.mem_map.mpr ⟨kv2, hkv2, rfl⟩)

/-- After one `cacheMeetingsBatch`, the stored index (when the prior index
entry was well formed) has duplicate-free ids and lists every id of the
batch. -/
theorem index_after_batch (now : Int) (S : Store) (R : List BatchEntry)
    (hne : ∀ e ∈ R, e.meetingId ≠ "index".data)
    (hidx : WFIndex S) :
    (indexIds (cacheMeetingsBatch now R S)).Nodup ∧
    ∀ id ∈ R.map (fun e => e.meetingId), id ∈ indexIds (cacheMeetingsBatch now R S) := by
  have hkne : ∀ e ∈ R, ¬ MEETING_INDEX_KEY = meetingKey e.meetingId := by
    intro e he hc
    exact hne e he ((meetingKey_eq_index_iff _).mp hc.symm)
  have hIdx1 : getItem (writeMeetingEntries now R S) MEETING_INDEX_KEY =
      getItem S MEETING_INDEX_KEY :=
    getItem_writeMeetingEntries_ne now R S _ hkne
  unfold WFIndex at hidx
  have hunfold : cacheMeetingsBatch now R S =
      updateMeetingIndexBatch now (R.map (fun e => e.meetingId))
        (writeMeetingEntries now R S) := rfl
  rw [hunfold]
  rcases hgi : getItem S MEETING_INDEX_KEY with _ | v
  · by_cases hch : ((R.map (fun e => e.meetingId)).foldl indexStep
        ({ meetingIds := [], lastUpdated := now }, false)).2 = true
    · have heq : updateMeetingIndexBatch now (R.map (fun e => e.meetingId))
          (writeMeetingEntries now R S) =
          setItem (writeMeetingEntries now R S) MEETING_INDEX_KEY
            (.idxVal { ((R.map (fun e => e.meetingId)).foldl indexStep
              ({ meetingIds := [], lastUpdated := now }, false)).1 with lastUpdated := now }) := by
        rw [updateMeetingIndexBatch_eq, hIdx1, hgi]
        dsimp only
        rw [if_pos hch]
      rw [heq]
      have hii : indexIds (setItem (writeMeetingEntries now R S) MEETING_INDEX_KEY
          (.idxVal { ((R.map (fun e => e.meetingId)).foldl indexStep
            ({ meetingIds := [], lastUpdated := now }, false)).1 with lastUpdated := now })) =
          ((R.map (fun e => e.meetingId)).foldl indexStep
            ({ meetingIds := [], lastUpdated := now }, false)).1.meetingIds := by
        unfold indexIds
        rw [getItem_setItem_self]
      rw [hii]
      constructor
      · exact indexFold_nodup _ _ (by simp)
      · intro id hid
        exact (indexFold_mem _ _ _).mpr (Or.inr hid)
    · have heq : updateMeetingIndexBatch now (R.map (fun e => e.meetingId))
          (writeMeetingEntries now R S) = writeMeetingEntries now R S := by
        rw [updateMeetingIndexBatch_eq, hIdx1, hgi]
        dsimp only
        rw [if_neg hch]
      rw [heq]
      have hii : indexIds (writeMeetingEntries now R S) = [] := by
        unfold indexIds
        rw [hIdx1, hgi]
      rw [hii]
      refine ⟨List.nodup_nil, ?_⟩
      intro id hid
      have hf : ((R.map (fun e => e.meetingId)).foldl indexStep
          ({ meetingIds := [], lastUpdated := now }, false)).2 = false := by
        revert hch
        cases ((R.map (fun e => e.meetingId)).foldl indexStep
          ({ meetingIds := [], lastUpdated := now }, false)).2 <;> simp
      exact indexFold_all_mem_of_not_changed _ _ hf id hid
  · rw [hgi] at hidx
    cases v
    case idxVal i =>
      by_cases hch : ((R.map (fun e => e.meetingId)).foldl indexStep (i, false)).2 = true
      · have heq : updateMeetingIndexBatch now (R.map (fun e => e.meetingId))
            (writeMeetingEntries now R S) =
            setItem (writeMeetingEntries now R S) MEETING_INDEX_KEY
              (.idxVal { ((R.map (fun e => e.meetingId)).foldl indexStep
                (i, false)).1 with lastUpdated := now }) := by
          rw [updateMeetingIndexBatch_eq, hIdx1, hgi]
          dsimp only
          rw [if_pos hch]
        rw [heq]
        have hii : indexIds (setItem (writeMeetingEntries now R S) MEETING_INDEX_KEY
            (.idxVal { ((R.map (fun e => e.meetingId)).foldl indexStep
              (i, false)).1 with lastUpdated := now })) =
            ((R.map (fun e => e.meetingId)).foldl indexStep (i, false)).1.meetingIds := by
          unfold indexIds
          rw [getItem_setItem_self]
        rw [hii]
        constructor
        · exact indexFold_nodup _ _ hidx
        · intro id hid
          exact (indexFold_mem _ _ _).mpr (Or.inr hid)
      · have heq : updateMeetingIndexBatch now (R.map (fun e => e.meetingId))
            (writeMeetingEntries now R S) = writeMeetingEntries now R S := by
          rw [updateMeetingIndexBatch_eq, hIdx1, hgi]
          dsimp only
          rw [if_neg hch]
        rw [heq]
        have hii : indexIds (writeMeetingEntries now R S) = i.meetingIds := by
          unfold indexIds
          rw [hIdx1, hgi]
        rw [hii]
        refine ⟨hidx, ?_⟩
        intro id hid
        have hf : ((R.map (fun e => e.meetingId)).foldl indexStep (i, false)).2 = false := by
          revert hch
          cases ((R.map (fun e => e.meetingId)).foldl indexStep (i, false)).2 <;> simp
        exact indexFold_all_mem_of_not_changed _ _ hf id hid
    all_goals exact hidx.elim

/-- `count` of a member of a duplicate-free list of strings is one. -/
theorem count_eq_one_of_mem_str {l : List Str} {a : Str} (hn : l.Nodup) (ha : a ∈ l) :
    l.count a = 1 := by
  induction l with
  | nil => cases ha
  | cons b l ih =>
    obtain ⟨h1, h2⟩ := List.nodup_cons.mp hn
    rcases List.mem_cons.mp ha with rfl | hm
    · rw [List.count_cons_self, List.count_eq_zero_of_not_mem h1]
    · have hne : a ≠ b := fun hc => h1 (hc ▸ hm)
      rw [List.count_cons_of_ne hne]
      exact ih h2 hm

/-- C5: writeBatch is idempotent — writing the same well-formed batch twice
(at one clock reading) leaves the store, and hence every later `readAll`,
exactly as after a single write; the returned record set carries no
duplicate ids, and the index lists each written id exactly once. -/
theorem writeBatch_idempotent (now : Int) (S : Store) (R : List BatchEntry)
    (hkeys : (storeKeys S).Nodup)
    (hids : (R.map (fun e => e.meetingId)).Nodup)
    (hne : ∀ e ∈ R, e.meetingId ≠ "index".data)
    (hwfR : ∀ e ∈ R, e.meetingId = e.meeting.recordingId ∧ e.meetingId ≠ [])
    (hwfS : recordsWellKeyed S)
    (hidx : WFIndex S) :
    cacheMeetingsBatch now R (cacheMeetingsBatch now R S) = cacheMeetingsBatch now R S ∧
    (∀ t : Int, getAllCachedMeetings t
        (cacheMeetingsBatch now R (cacheMeetingsBatch now R S)) =
      getAllCachedMeetings t (cacheMeetingsBatch now R S)) ∧
    ((getAllCachedMeetings now
        (cacheMeetingsBatch now R (cacheMeetingsBatch now R S))).map
      (fun m => m.meeting.recordingId)).Nodup ∧
    (indexIds (cacheMeetingsBatch now R (cacheMeetingsBatch now R S))).Nodup ∧
    (∀ id ∈ R.map (fun e => e.meetingId),
      (indexIds (cacheMeetingsBatch now R (cacheMeetingsBatch now R S))).count id = 1) := by
  have hidem := cacheMeetingsBatch_idem now S R hkeys hids hne
  have hkeysS1 : (storeKeys (cacheMeetingsBatch now R S)).Nodup :=
    storeKeys_updateMeetingIndexBatch_nodup now _
      (storeKeys_writeMeetingEntries_nodup now R S hkeys)
  have hwfS1 : recordsWellKeyed (cacheMeetingsBatch now R S) :=
    recordsWellKeyed_updateMeetingIndexBatch now _
      (recordsWellKeyed_writeMeetingEntries now R S hwfS hwfR)
  have hindex := index_after_batch now S R hne hidx
  refine ⟨hidem, fun t => by rw [hidem], ?_, ?_, ?_⟩
  · rw [hidem]
    exact readAll_ids_nodup now _ hkeysS1 hwfS1
  · rw [hidem]
    exact hindex.1
  · intro id hid
    rw [hidem]
    exact count_eq_one_of_mem_str hindex.1 (hindex.2 id hid)

/-- Witness for C5 at a concrete input: a two-record batch written twice
into an empty store. -/
theorem writeBatch_idempotent_witness :
    cacheMeetingsBatch 7 [toBatchEntry m0, toBatchEntry mB]
        (cacheMeetingsBatch 7 [toBatchEntry m0, toBatchEntry mB] []) =
      cacheMeetingsBatch 7 [toBatchEntry m0, toBatchEntry mB] [] ∧
    (indexIds (cacheMeetingsBatch 7 [toBatchEntry m0, toBatchEntry mB]
      (cacheMeetingsBatch 7 [toBatchEntry m0, toBatchEntry mB] []))).count "m1".data = 1 :=
  ⟨(writeBatch_idempotent 7 [] [toBatchEntry m0, toBatchEntry mB]
      (by decide) (by decide) (by decide) (by decide)
      (fun kv hkv => absurd hkv (List.not_mem_nil kv))
      (by trivial)).1,
    (writeBatch_idempotent 7 [] [toBatchEntry m0, toBatchEntry mB]
      (by decide) (by decide) (by decide) (by decide)
      (fun kv hkv => absurd hkv (List.not_mem_nil kv))
      (by trivial)).2.2.2.2 "m1".data (by decide)⟩

/-! ## Sorting lemmas for `sortBy` -/

theorem insertBy_perm {α : Type} (le : α → α → Bool) (a : α) :
    ∀ l : List α, (insertBy le a l).Perm (a :: l) := by
  intro l
  induction l with
  | nil => exact List.Perm.refl _
  | cons b bs ih =>
    unfold insertBy
    by_cases h : le a b
    · rw [if_pos h]
    · rw [if_neg h]
      exact (ih.cons b).trans (List.Perm.swap a b bs)

theorem sortBy_perm {α : Type} (le : α → α → Bool) :
    ∀ l : List α, (sortBy le l).Perm l := by
  intro l
  induction l with
  | nil => exact List.Perm.refl _
  | cons a as ih =>
    exact (insertBy_perm le a (sortBy le as)).trans (ih.cons a)

theorem mem_insertBy {α : Type} {le : α → α → Bool} {a x : α} {l : List α}
    (h : x ∈ insertBy le a l) : x = a ∨ x ∈ l := by
  have := (insertBy_perm le a l).mem_iff.mp h
  simpa using this

theorem insertBy_pairwise {α : Type} {le : α → α → Bool}
    (htot : ∀ x y, (le x y || le y x) = true)
    (htrans : ∀ x y z, le x y = true → le y z = true → le x z = true)
    (a : α) :
    ∀ l : List α, List.Pairwise (fun x y => le x y = true) l →
    List.Pairwise (fun x y => le x y = true) (insertBy le a l) := by
  intro l
  induction l with
  | nil =>
    intro _
    exact List.pairwise_singleton _ a
  | cons b bs ih =>
    intro hp
    obtain ⟨hb, hbs⟩ := List.pairwise_cons.mp hp
    unfold insertBy
    by_cases h : le a b
    · rw [if_pos h]
      refine List.pairwise_cons.mpr ⟨?_, hp⟩
      intro x hx
      rcases List.mem_cons.mp hx with rfl | hm
      · exact h
      · exact htrans a b x h (hb x hm)
    · rw [if_neg h]
      have hba : le b a = true := by
        have := htot a b
        rcases Bool.or_eq_true_iff.mp this with h1 | h1
        · exact absurd h1 h
        · exact h1
      refine List.pairwise_cons.mpr ⟨?_, ih hbs⟩
      intro x hx
      rcases mem_insertBy hx with rfl | hm
      · exact hba
      · exact hb x hm

theorem sortBy_pairwise {α : Type} {le : α → α → Bool}
    (htot : ∀ x y, (le x y || le y x) = true)
    (htrans : ∀ x y z, le x y = true → le y z = true → le x z = true) :
    ∀ l : List α, List.Pairwise (fun x y => le x y = true) (sortBy le l) := by
  intro l
  induction l with
  | nil => simp [sortBy]
  | cons a as ih => exact insertBy_pairwise htot htrans a _ ih

theorem cachedAtDesc_total (a b : CachedMeetingData) :
    (cachedAtDesc a b || cachedAtDesc b a) = true := by
  simp [cachedAtDesc]
  omega

theorem cachedAtDesc_trans (a b c : CachedMeetingData)
    (h1 : cachedAtDesc a b = true) (h2 : cachedAtDesc b c = true) :
    cachedAtDesc a c = true := by
  simp [cachedAtDesc] at h1 h2 ⊢
  omega

/-! ## Lemmas about the prune removal pass -/

theorem removeFold_eq_filter :
    ∀ (ms : List CachedMeetingData) (st : Store),
    ms.foldl (fun st m =>
      if getMeetingId m = [] then st else removeItem st (meetingKey (getMeetingId m))) st =
    st.filter (fun kv =>
      ! ms.any (fun m => getMeetingId m ≠ [] ∧ kv.1 = meetingKey (getMeetingId m))) := by
  intro ms
  induction ms with
  | nil =>
    intro st
    exact (List.filter_eq_self.mpr (fun a _ => by simp)).symm
  | cons m ms ih =>
    intro st
    rw [List.foldl_cons]
    by_cases h : getMeetingId m = []
    · simp only [h, ite_true, if_pos]
      rw [ih]
      apply List.filter_congr
      intro kv _
      simp [h]
    · simp only [h, ite_false, if_neg]
      rw [ih]
      unfold removeItem
      rw [List.filter_filter]
      apply List.filter_congr
      intro kv _
      simp only [List.any_cons, Bool.not_or, Bool.and_comm]
      congr 1
      simp [h]

/-- Writing any value at the index key is invisible to `readAll`. -/
theorem processEntry_index_none (now : Int) (v : StorageValue) :
    processEntry now (MEETING_INDEX_KEY, v) = none := by
  unfold processEntry
  have h1 : MEETING_KEY_NS.isPrefixOf MEETING_INDEX_KEY = true := by decide
  simp [h1]

theorem readAll_replaceMap_index (now : Int) (v : StorageValue) :
    ∀ st : Store,
    (st.map (fun kv => if kv.1 = MEETING_INDEX_KEY then (MEETING_INDEX_KEY, v) else kv)).filterMap
        (processEntry now) =
      st.filterMap (processEntry now) := by
  intro st
  induction st with
  | nil => rfl
  | cons kv st ih =>
    by_cases hk : kv.1 = MEETING_INDEX_KEY
    · have hnone : processEntry now kv = none := by
        have hkv : kv = (MEETING_INDEX_KEY, kv.2) := by
          rw [← hk]
        rw [hkv]
        exact processEntry_index_none now kv.2
      rw [List.map_cons, if_pos hk, List.filterMap_cons, List.filterMap_cons,
        processEntry_index_none, hnone]
      exact ih
    · rw [List.map_cons, if_neg hk, List.filterMap_cons, List.filterMap_cons]
      cases processEntry now kv
      · exact ih
      · rw [ih]

theorem readAll_setItem_index (now : Int) (st : Store) (v : StorageValue) :
    (setItem st MEETING_INDEX_KEY v).filterMap (processEntry now) =
      st.filterMap (processEntry now) := by
  by_cases hm : MEETING_INDEX_KEY ∈ storeKeys st
  · rw [setItem_of_mem hm]
    exact readAll_replaceMap_index now v st
  · rw [setItem_of_not_mem hm, List.filterMap_append]
    simp [List.filterMap_cons, processEntry_index_none]

/-- Filtering the store by a key predicate and filtering `readAll`'s output
by the matching record predicate commute with `readAll`. -/
theorem filterMap_filter_exchange (now : Int) (p : Str × StorageValue → Bool)
    (q : CachedMeetingData → Bool) :
    ∀ st : Store,
    (∀ kv ∈ st, ∀ m, processEntry now kv = some m → p kv = q m) →
    (st.filter p).filterMap (processEntry now) =
      (st.filterMap (processEntry now)).filter q := by
  intro st
  induction st with
  | nil => intro _; rfl
  | cons kv st ih =>
    intro hpq
    have hpq2 : ∀ x ∈ st, ∀ m, processEntry now x = some m → p x = q m :=
      fun x hx => hpq x (List.mem_cons_of_mem kv hx)
    by_cases hp : p kv = true
    · rw [List.filter_cons_of_pos hp, List.filterMap_cons, List.filterMap_cons]
      cases hpe : processEntry now kv with
      | none => exact ih hpq2
      | some m =>
        have hq : q m = true := by
          rw [← hpq kv (List.mem_cons_self kv st) m hpe]
          exact hp
        rw [List.filter_cons_of_pos hq, ih hpq2]
    · rw [List.filter_cons_of_neg (by simpa using hp), List.filterMap_cons]
      cases hpe : processEntry now kv with
      | none => exact ih hpq2
      | some m =>
        have hq : ¬ q m = true := by
          rw [← hpq kv (List.mem_cons_self kv st) m hpe]
          exact hp
        rw [List.filter_cons_of_neg (by simpa using hq)]
        exact ih hpq2

/-- Every record `readAll` returns from a well-keyed store has a nonempty
recording id. -/
theorem readAll_ids_ne_nil {now : Int} {st : Store} (hwf : recordsWellKeyed st) :
    ∀ m ∈ st.filterMap (processEntry now), m.meeting.recordingId ≠ [] := by
  intro m hm
  obtain ⟨kv, hkv, hpe⟩ := List.mem_filterMap.mp hm
  obtain ⟨d, hd, hmeet⟩ := processEntry_shape hpe
  rw [hmeet]
  exact (hwf kv hkv d hd).2

theorem getMeetingId_eq {m : CachedMeetingData} (h : m.meeting.recordingId ≠ []) :
    getMeetingId m = m.meeting.recordingId := by
  unfold getMeetingId
  rw [if_pos h]

/-- Filtering a list that holds exactly on its first `n` elements yields its
`n`-element prefix. -/
theorem filter_take_drop_split {α : Type} (q : α → Bool) (l : List α) (n : Nat)
    (h1 : ∀ a ∈ l.take n, q a = true) (h2 : ∀ a ∈ l.drop n, ¬ q a = true) :
    l.filter q = l.take n := by
  conv_lhs => rw [← List.take_append_drop n l]
  rw [List.filter_append, List.filter_eq_self.mpr h1,
    List.filter_eq_nil_iff.mpr h2, List.append_nil]

/-- The sample two-record store is well keyed. -/
theorem SW6_wellKeyed : recordsWellKeyed SW6 := by
  intro kv hkv d hd
  rcases List.mem_cons.mp hkv with rfl | hkv2
  · injection hd with h
    subst h
    exact ⟨by decide, by decide⟩
  · rcases List.mem_cons.mp hkv2 with rfl | hkv3
    · injection hd with h
      subst h
      exact ⟨by decide, by decide⟩
    · cases hkv3

/-! ## C6: the prune bound -/

/-- C6: pruning a well-formed cache holding more than `keep` live records
leaves exactly `keep` records in `readAll`; every record that remains was
there before; every surviving record's `cachedAt` is at least every evicted
record's `cachedAt` (the kept ones are the most recent); and the index is
rewritten to hold exactly the ids of the kept records. -/
theorem prune_bound (now : Int) (S : Store) (keep : Nat)
    (hkeys : (storeKeys S).Nodup)
    (hwf : recordsWellKeyed S)
    (hM : keep < (getAllCachedMeetings now S).length) :
    (getAllCachedMeetings now (pruneCache now keep S)).length = keep ∧
    (∀ m ∈ getAllCachedMeetings now (pruneCache now keep S),
      m ∈ getAllCachedMeetings now S) ∧
    (∀ m ∈ getAllCachedMeetings now (pruneCache now keep S),
      ∀ m2 ∈ getAllCachedMeetings now S,
        m2 ∉ getAllCachedMeetings now (pruneCache now keep S) →
        m2.cachedAt ≤ m.cachedAt) ∧
    (∀ id, id ∈ indexIds (pruneCache now keep S) ↔
      id ∈ (getAllCachedMeetings now (pruneCache now keep S)).map
        (fun m => m.meeting.recordingId)) := by
  have hprune : pruneCache now keep S =
      setItem (S.filter (fun kv =>
        ! ((sortBy cachedAtDesc (getAllCachedMeetings now S)).drop keep).any
          (fun m => getMeetingId m ≠ [] ∧ kv.1 = meetingKey (getMeetingId m))))
        MEETING_INDEX_KEY
        (.idxVal
          { meetingIds := (((sortBy cachedAtDesc
              (getAllCachedMeetings now S)).take keep).map
                getMeetingId).filter (fun i => i ≠ []),
            lastUpdated := now }) := by
    simp only [pruneCache]
    rw [if_neg (not_le.mpr hM), removeFold_eq_filter]
  have hwfbefore : ∀ m ∈ getAllCachedMeetings now S, m.meeting.recordingId ≠ [] :=
    readAll_ids_ne_nil hwf
  have hperm : (sortBy cachedAtDesc (getAllCachedMeetings now S)).Perm
      (getAllCachedMeetings now S) := sortBy_perm _ _
  have hwfsorted : ∀ m ∈ sortBy cachedAtDesc (getAllCachedMeetings now S),
      m.meeting.recordingId ≠ [] :=
    fun m hm => hwfbefore m (hperm.mem_iff.mp hm)
  have hids_nodup : ((getAllCachedMeetings now S).map
      (fun m => m.meeting.recordingId)).Nodup :=
    readAll_ids_nodup now S hkeys hwf
  have hids_nodup_sorted : ((sortBy cachedAtDesc (getAllCachedMeetings now S)).map
      (fun m => m.meeting.recordingId)).Nodup :=
    ((hperm.map _).nodup_iff).mpr hids_nodup
  have hsorted_nodup : (sortBy cachedAtDesc (getAllCachedMeetings now S)).Nodup :=
    List.Nodup.of_map _ hids_nodup_sorted
  have hsplit : (sortBy cachedAtDesc (getAllCachedMeetings now S)).take keep ++
      (sortBy cachedAtDesc (getAllCachedMeetings now S)).drop keep =
      sortBy cachedAtDesc (getAllCachedMeetings now S) :=
    List.take_append_drop keep _
  have hdisj : ((sortBy cachedAtDesc (getAllCachedMeetings now S)).take keep).Disjoint
      ((sortBy cachedAtDesc (getAllCachedMeetings now S)).drop keep) :=
    List.disjoint_take_drop hsorted_nodup (le_refl keep)
  -- readAll after prune is the filter of readAll before prune
  have hafter : getAllCachedMeetings now (pruneCache now keep S) =
      (getAllCachedMeetings now S).filter (fun m =>
        ! ((sortBy cachedAtDesc (getAllCachedMeetings now S)).drop keep).any
          (fun m2 => getMeetingId m2 ≠ [] ∧
            meetingKey m.meeting.recordingId = meetingKey (getMeetingId m2))) := by
    rw [hprune]
    show (setItem _ MEETING_INDEX_KEY _).filterMap (processEntry now) = _
    rw [readAll_setItem_index]
    apply filterMap_filter_exchange
    intro kv hkv m hpe
    obtain ⟨d, hd, hmeet⟩ := processEntry_shape hpe
    have hk : kv.1 = meetingKey d.meeting.recordingId := (hwf kv hkv d hd).1
    rw [hk, hmeet]
  -- the filter keeps exactly the taken prefix of the sorted list
  have hq_keep : ∀ m ∈ (sortBy cachedAtDesc (getAllCachedMeetings now S)).take keep,
      (! ((sortBy cachedAtDesc (getAllCachedMeetings now S)).drop keep).any
        (fun m2 => getMeetingId m2 ≠ [] ∧
          meetingKey m.meeting.recordingId = meetingKey (getMeetingId m2))) = true := by
    intro m hm
    rw [Bool.not_eq_true', List.any_eq_false]
    intro m2 hm2
    simp only [Bool.not_eq_true, decide_eq_false_iff_not, not_and]
    intro _ hkeq
    have hm2s : m2 ∈ sortBy cachedAtDesc (getAllCachedMeetings now S) :=
      List.mem_of_mem_drop hm2
    have hms : m ∈ sortBy cachedAtDesc (getAllCachedMeetings now S) :=
      List.mem_of_mem_take hm
    have hgid : getMeetingId m2 = m2.meeting.recordingId :=
      getMeetingId_eq (hwfsorted m2 hm2s)
    rw [hgid] at hkeq
    have hidseq : m.meeting.recordingId = m2.meeting.recordingId :=
      meetingKey_inj hkeq
    have hmeq : m = m2 := List.inj_on_of_nodup_map hids_nodup_sorted hms hm2s hidseq
    exact hdisj hm (hmeq ▸ hm2)
  have hq_rem : ∀ m ∈ (sortBy cachedAtDesc (getAllCachedMeetings now S)).drop keep,
      (! ((sortBy cachedAtDesc (getAllCachedMeetings now S)).drop keep).any
        (fun m2 => getMeetingId m2 ≠ [] ∧
          meetingKey m.meeting.recordingId = meetingKey (getMeetingId m2))) = false := by
    intro m hm
    rw [Bool.not_eq_false', List.any_eq_true]
    refine ⟨m, hm, ?_⟩
    have hms : m ∈ sortBy cachedAtDesc (getAllCachedMeetings now S) :=
      List.mem_of_mem_drop hm
    have hgid : getMeetingId m = m.meeting.recordingId :=
      getMeetingId_eq (hwfsorted m hms)
    simp only [hgid, decide_eq_true_eq]
    exact ⟨hwfsorted m hms, trivial⟩
  have hfilter_sorted : (sortBy cachedAtDesc (getAllCachedMeetings now S)).filter
      (fun m => ! ((sortBy cachedAtDesc (getAllCachedMeetings now S)).drop keep).any
        (fun m2 => getMeetingId m2 ≠ [] ∧
          meetingKey m.meeting.recordingId = meetingKey (getMeetingId m2))) =
      (sortBy cachedAtDesc (getAllCachedMeetings now S)).take keep :=
    filter_take_drop_split _ _ keep hq_keep
      (fun a ha => by rw [hq_rem a ha]; exact Bool.false_ne_true)
  have hafter_perm : (getAllCachedMeetings now (pruneCache now keep S)).Perm
      ((sortBy cachedAtDesc (getAllCachedMeetings now S)).take keep) := by
    rw [hafter, ← hfilter_sorted]
    exact (hperm.filter _).symm
  have hlen_sorted : (sortBy cachedAtDesc (getAllCachedMeetings now S)).length =
      (getAllCachedMeetings now S).length := hperm.length_eq
  refine ⟨?_, ?_, ?_, ?_⟩
  · rw [hafter_perm.length_eq, List.length_take, hlen_sorted]
    exact Nat.min_eq_left (le_of_lt hM)
  · intro m hm
    rw [hafter] at hm
    exact (List.mem_filter.mp hm).1
  · intro m hm m2 hm2 hnm2
    have hmk : m ∈ (sortBy cachedAtDesc (getAllCachedMeetings now S)).take keep :=
      hafter_perm.mem_iff.mp hm
    have hm2s : m2 ∈ sortBy cachedAtDesc (getAllCachedMeetings now S) :=
      hperm.mem_iff.mpr hm2
    have hm2r : m2 ∈ (sortBy cachedAtDesc (getAllCachedMeetings now S)).drop keep := by
      rcases List.mem_append.mp (by rw [hsplit]; exact hm2s) with hk | hr
      · exact absurd (hafter_perm.mem_iff.mpr hk) hnm2
      · exact hr
    have hpw := sortBy_pairwise cachedAtDesc_total cachedAtDesc_trans
      (getAllCachedMeetings now S)
    rw [← hsplit] at hpw
    have := (List.pairwise_append.mp hpw).2.2 m hmk m2 hm2r
    simpa [cachedAtDesc] using this
  · intro id
    have hindex : indexIds (pruneCache now keep S) =
        (((sortBy cachedAtDesc (getAllCachedMeetings now S)).take keep).map
          getMeetingId).filter (fun i => i ≠ []) := by
      rw [hprune]
      unfold indexIds
      rw [getItem_setItem_self]
    have hmap : ((sortBy cachedAtDesc (getAllCachedMeetings now S)).take keep).map
        getMeetingId =
        ((sortBy cachedAtDesc (getAllCachedMeetings now S)).take keep).map
          (fun m => m.meeting.recordingId) :=
      List.map_congr_left (fun m hm =>
        getMeetingId_eq (hwfsorted m (List.mem_of_mem_take hm)))
    have hfilterall : (((sortBy cachedAtDesc (getAllCachedMeetings now S)).take keep).map
        (fun m => m.meeting.recordingId)).filter (fun i => i ≠ []) =
        ((sortBy cachedAtDesc (getAllCachedMeetings now S)).take keep).map
          (fun m => m.meeting.recordingId) := by
      rw [List.filter_eq_self]
      intro a ha
      obtain ⟨m, hm, heq⟩ := List.mem_map.mp ha
      simp only [decide_eq_true_eq, ne_eq]
      rw [← heq]
      exact hwfsorted m (List.mem_of_mem_take hm)
    rw [hindex, hmap, hfilterall]
    exact (((hafter_perm.map (fun m => m.meeting.recordingId))).mem_iff).symm

/-- Witness for C6 at a concrete input: a two-record store pruned to one. -/
theorem prune_bound_witness :
    1 < (getAllCachedMeetings 200 SW6).length ∧
    (getAllCachedMeetings 200 (pruneCache 200 1 SW6)).length = 1 ∧
    (∀ m ∈ getAllCachedMeetings 200 (pruneCache 200 1 SW6),
      m ∈ getAllCachedMeetings 200 SW6) ∧
    ("m2".data ∈ indexIds (pruneCache 200 1 SW6) ↔
      "m2".data ∈ (getAllCachedMeetings 200 (pruneCache 200 1 SW6)).map
        (fun m => m.meeting.recordingId)) :=
  ⟨by decide,
    (prune_bound 200 SW6 1 (by decide) SW6_wellKeyed (by decide)).1,
    (prune_bound 200 SW6 1 (by decide) SW6_wellKeyed (by decide)).2.1,
    (prune_bound 200 SW6 1 (by decide) SW6_wellKeyed (by decide)).2.2.2 "m2".data⟩

end Fathom
